import Mathlib

/-!
A verification development for the terragrunt stack-command wrapper
(`modules/terragrunt/cmd.go` and `modules/terragrunt/stack_output.go`).

Strings are modelled as `List Char` (`String.data`); every Go string
operation used by the wrapper is given a structurally recursive Lean
definition so that concrete runs reduce in the kernel.  Public functions
keep their Go names and operate on `String`, delegating to the `List Char`
core.
-/

/-! ### Character classes

`goIsSpace` models `unicode.IsSpace` restricted to ASCII (the characters
`strings.TrimSpace` trims in the outputs at hand); `rePerlSpace` models the
RE2 character class `\s` = `[\t\n\f\r ]` used through `\S` in the log-line
regex (note RE2's `\s` does not include vertical tab, while `unicode.IsSpace`
does). -/

def goIsSpace (c : Char) : Bool :=
  c == ' ' || c == '\t' || c == '\n' || c == '\x0b' || c == '\x0c' || c == '\r'

def rePerlSpace (c : Char) : Bool :=
  c == ' ' || c == '\t' || c == '\n' || c == '\x0c' || c == '\r'

/-! ### List-of-char primitives mirroring the `strings` package -/

/-- `strings.Split(s, "\n")` on character lists: always returns at least one
(possibly empty) line, and never a line containing a newline. -/
def tgSplitLines : List Char → List (List Char)
  | [] => [[]]
  | c :: cs =>
    if c = '\n' then [] :: tgSplitLines cs
    else
      match tgSplitLines cs with
      | [] => [[c]]
      | l :: ls => (c :: l) :: ls

/-- `strings.Join(lines, "\n")` on character lists. -/
def tgJoinLines : List (List Char) → List Char
  | [] => []
  | [l] => l
  | l :: ls => l ++ '\n' :: tgJoinLines ls

/-- Leading-whitespace drop, one half of `strings.TrimSpace`. -/
def goDropSpace (s : List Char) : List Char := s.dropWhile goIsSpace

/-- `strings.TrimSpace`: drop Go whitespace from both ends. -/
def goTrimSpace (s : List Char) : List Char :=
  ((goDropSpace s).reverse.dropWhile goIsSpace).reverse

/-- `strings.Trim(s, string(c))`: drop every leading and trailing occurrence
of the single character `c` (note: all of them, not just one pair). -/
def goTrimChar (c : Char) (s : List Char) : List Char :=
  ((s.dropWhile (· == c)).reverse.dropWhile (· == c)).reverse

/-- `strings.HasPrefix(s, string(c))` for a one-character prefix. -/
def headIs (c : Char) : List Char → Bool
  | [] => false
  | x :: _ => x == c

/-- `strings.HasSuffix(s, string(c))` for a one-character suffix. -/
def lastIs (c : Char) (s : List Char) : Bool := headIs c s.reverse

/-- Drop the literal token `pat` from the front of `s`, or fail. -/
def dropLit : List Char → List Char → Option (List Char)
  | [], s => some s
  | _ :: _, [] => none
  | p :: ps, c :: cs => if p = c then dropLit ps cs else none

/-- `strings.Contains(hay, needle)` via `dropLit` at every start position. -/
def containsTok (needle : List Char) : List Char → Bool
  | [] => (dropLit needle ([] : List Char)).isSome
  | c :: cs => (dropLit needle (c :: cs)).isSome || containsTok needle cs

/-! ### The `tgLogLevel` regular expression

`tgLogLevel = .*time=\S+ level=\S+ prefix=\S+ binary=\S+ msg=.*` ― since
neither `.` nor `\S` matches a newline, every match lies within one line,
and on a line containing the signature the greedy leading and trailing `.*`
extend the (leftmost) match to the entire line.  `ReplaceAllString(raw, "")`
therefore blanks exactly the lines on which the signature occurs somewhere,
which is what `tgReplaceLogLines` computes line by line. -/

/-- After a literal key such as `time=`, the regex requires `\S+` followed by
the next literal separator; since each separator starts with a space and `\S`
excludes spaces, the token is forced to be the maximal nonspace run. -/
def sigStep (sep : List Char) (s : List Char) : Option (List Char) :=
  let tok := s.takeWhile (fun c => !rePerlSpace c)
  let rest := s.dropWhile (fun c => !rePerlSpace c)
  if tok.isEmpty then none else dropLit sep rest

/-- Does the log-line signature start exactly at the head of `s`? -/
def sigAt (s : List Char) : Bool :=
  (do
    let r1 ← dropLit "time=".data s
    let r2 ← sigStep " level=".data r1
    let r3 ← sigStep " prefix=".data r2
    let r4 ← sigStep " binary=".data r3
    sigStep " msg=".data r4).isSome

/-- Does the signature occur anywhere in the line? -/
def matchesTgLog : List Char → Bool
  | [] => sigAt []
  | c :: cs => sigAt (c :: cs) || matchesTgLog cs

/-- The per-line effect of `tgLogLevel.ReplaceAllString(raw, "")`: a line on
which the signature occurs is replaced by the empty line. -/
def tgReplaceLogLine (l : List Char) : List Char :=
  if matchesTgLog l then [] else l

/-! ### `cleanTerragruntOutput` (stack_output.go) -/

/-- The shared filtering loop of `cleanTerragruntOutput` and
`cleanTerragruntJson`: blank log-signature lines, then keep the trimmed form
of every line that is nonempty after trimming and does not contain `" msg="`. -/
def tgFilteredLines (raw : List Char) : List (List Char) :=
  ((tgSplitLines raw).map tgReplaceLogLine).filterMap fun line =>
    let trimmed := goTrimSpace line
    if !trimmed.isEmpty && !containsTok " msg=".data line then some trimmed
    else none

/-- `cleanTerragruntOutput` on character lists, mirroring the Go source:
filter, join, trim, JSON passthrough on `{`/`[`, else strip surrounding
double quotes via `strings.Trim`. -/
def cleanTerragruntOutputL (raw : List Char) : List Char :=
  let result := tgFilteredLines raw
  if result.isEmpty then []
  else
    let finalOutput := goTrimSpace (tgJoinLines result)
    if headIs '{' finalOutput || headIs '[' finalOutput then finalOutput
    else if headIs '"' finalOutput && lastIs '"' finalOutput then
      goTrimChar '"' finalOutput
    else finalOutput

/-- `cleanTerragruntOutput`; the Go function also returns an `error` which is
`nil` on every path, so the model is a plain function. -/
def cleanTerragruntOutput (raw : String) : String :=
  ⟨cleanTerragruntOutputL raw.data⟩

/-! ### A regular-expression engine for the warning patterns

`hasWarning` builds the pattern `\nWarning: <p>[^\n]*\n` around each
configured pattern `p` and compiles it with `regexp.Compile`.  The engine
below models the RE2 subset those patterns use: literals, `.`, character
classes, escapes and Perl classes, grouping, alternation, and the
repetition operators.  Matching is by Brzozowski derivatives; `rxFindAll`
scans for successive non-overlapping matches, taking the longest match at
the leftmost possible start (for the patterns at hand, whose tails are a
greedy `[^\n]*` before a forced `\n`, this coincides with RE2's
leftmost-first choice). -/

inductive RxItem where
  | one (c : Char)
  | range (lo hi : Char)
deriving DecidableEq

inductive Rx where
  | emp
  | eps
  | cls (neg : Bool) (items : List RxItem)
  | cat (a b : Rx)
  | alt (a b : Rx)
  | star (a : Rx)
deriving DecidableEq

def rxItemMatch (c : Char) : RxItem → Bool
  | .one x => c == x
  | .range lo hi => lo ≤ c && c ≤ hi

def rxClsMatch (neg : Bool) (items : List RxItem) (c : Char) : Bool :=
  (items.any (rxItemMatch c)) != neg

def rxNullable : Rx → Bool
  | .emp => false
  | .eps => true
  | .cls _ _ => false
  | .cat a b => rxNullable a && rxNullable b
  | .alt a b => rxNullable a || rxNullable b
  | .star _ => true

/-- Smart concatenation (absorbs `emp`, drops `eps`). -/
def rxCat : Rx → Rx → Rx
  | .emp, _ => .emp
  | .eps, b => b
  | a, b =>
    match b with
    | .emp => .emp
    | .eps => a
    | b => .cat a b

/-- Smart alternation (drops `emp`). -/
def rxAlt : Rx → Rx → Rx
  | .emp, b => b
  | a, b =>
    match b with
    | .emp => a
    | b => .alt a b

def rxDeriv (r : Rx) (c : Char) : Rx :=
  match r with
  | .emp => .emp
  | .eps => .emp
  | .cls neg items => if rxClsMatch neg items c then .eps else .emp
  | .cat a b =>
    if rxNullable a then rxAlt (rxCat (rxDeriv a c) b) (rxDeriv b c)
    else rxCat (rxDeriv a c) b
  | .alt a b => rxAlt (rxDeriv a c) (rxDeriv b c)
  | .star a => rxCat (rxDeriv a c) (.star a)

/-- Length of the longest match of `r` at the head of `s` (`none`: no match,
`some 0`: only the empty match). -/
def rxLongestAux (r : Rx) (s : List Char) (i : Nat) (best : Option Nat) : Option Nat :=
  let best := if rxNullable r then some i else best
  match s with
  | [] => best
  | c :: cs => rxLongestAux (rxDeriv r c) cs (i + 1) best

def rxLongest (r : Rx) (s : List Char) : Option Nat :=
  rxLongestAux r s 0 none

/-- `FindAllString(s, -1)`: successive non-overlapping matches; an empty
match is recorded and the scan advances one character. -/
def rxFindAllAux (r : Rx) : Nat → List Char → List (List Char)
  | 0, _ => []
  | _ + 1, [] => if rxNullable r then [[]] else []
  | fuel + 1, c :: cs =>
    match rxLongest r (c :: cs) with
    | none => rxFindAllAux r fuel cs
    | some 0 => [] :: rxFindAllAux r fuel cs
    | some (n + 1) => (c :: cs).take (n + 1) :: rxFindAllAux r fuel ((c :: cs).drop (n + 1))

def rxFindAll (r : Rx) (s : List Char) : List (List Char) :=
  rxFindAllAux r (s.length + 1) s

/-- Is there a match anywhere (the semantics of `MatchString`)? -/
def rxSearch (r : Rx) : List Char → Bool
  | [] => rxNullable r
  | c :: cs => (rxLongest r (c :: cs)).isSome || rxSearch r cs

/-! ### Compiling a pattern string (an RE2 subset)

`rxCompile` parses the syntax the wrapper's patterns may use; constructs the
model does not cover (anchors, named groups, flags) are rejected, as are the
genuinely malformed inputs RE2 rejects: an unmatched `(` or `)`, an
unterminated `[`-class, an inverted range, a repetition with nothing to
repeat, a trailing backslash, or an unknown letter escape. -/

def rxDot : Rx := .cls true [.one '\n']

def rxPerlCls : Char → Option Rx
  | 's' => some (.cls false [.one ' ', .one '\t', .one '\n', .one '\x0c', .one '\r'])
  | 'S' => some (.cls true [.one ' ', .one '\t', .one '\n', .one '\x0c', .one '\r'])
  | 'd' => some (.cls false [.range '0' '9'])
  | 'D' => some (.cls true [.range '0' '9'])
  | 'w' => some (.cls false [.range '0' '9', .range 'A' 'Z', .one '_', .range 'a' 'z'])
  | 'W' => some (.cls true [.range '0' '9', .range 'A' 'Z', .one '_', .range 'a' 'z'])
  | _ => none

def rxEscChar : Char → Option Char
  | 'n' => some '\n'
  | 't' => some '\t'
  | 'r' => some '\r'
  | 'f' => some '\x0c'
  | 'v' => some '\x0b'
  | 'a' => some '\x07'
  | '\\' => some '\\'
  | '.' => some '.'
  | '+' => some '+'
  | '*' => some '*'
  | '?' => some '?'
  | '(' => some '('
  | ')' => some ')'
  | '[' => some '['
  | ']' => some ']'
  | '{' => some '{'
  | '}' => some '}'
  | '|' => some '|'
  | '^' => some '^'
  | '$' => some '$'
  | '-' => some '-'
  | '/' => some '/'
  | c => if ('0' ≤ c && c ≤ '9') || ('A' ≤ c && c ≤ 'Z') || ('a' ≤ c && c ≤ 'z') then none else some c

/-- One item of a bracket class (after the opening `[` and optional `^`). -/
def rxClsItem : List Char → Option (RxItem × List Char)
  | [] => none
  | '\\' :: e :: rest =>
    match rxEscChar e with
    | some c => some (.one c, rest)
    | none => none
  | '\\' :: [] => none
  | c :: '-' :: d :: rest =>
    if d = ']' then some (.one c, '-' :: d :: rest)
    else if c ≤ d then some (.range c d, rest)
    else none
  | c :: rest => some (.one c, rest)

def rxClsBody : Nat → List Char → Option (List RxItem × List Char)
  | 0, _ => none
  | _ + 1, ']' :: rest => some ([], rest)
  | fuel + 1, s =>
    match rxClsItem s with
    | none => none
    | some (it, rest) =>
      match rxClsBody fuel rest with
      | some (its, rest') => some (it :: its, rest')
      | none => none

/-- `r` repeated exactly `n` times. -/
def rxPow (r : Rx) : Nat → Rx
  | 0 => .eps
  | n + 1 => rxCat r (rxPow r n)

/-- `(r|ε)` repeated `n` times, for the optional part of `{m,k}`. -/
def rxUpTo (r : Rx) : Nat → Rx
  | 0 => .eps
  | n + 1 => rxCat (rxAlt r .eps) (rxUpTo r n)

def rxDigits (s : List Char) : List Char × List Char :=
  (s.takeWhile (fun c => '0' ≤ c && c ≤ '9'), s.dropWhile (fun c => '0' ≤ c && c ≤ '9'))

def rxDigitsVal (ds : List Char) : Nat :=
  ds.foldl (fun a c => a * 10 + (c.toNat - '0'.toNat)) 0

/-- Try a `{m}`, `{m,}` or `{m,k}` counted repetition after an atom; a brace
that opens no valid count is a literal in RE2, signalled here as `none`. -/
def rxBraceCount (s : List Char) : Option (Nat × Option Nat × List Char) :=
  let (ds, r1) := rxDigits s
  if ds.isEmpty then none
  else
    match r1 with
    | '}' :: rest => some (rxDigitsVal ds, some (rxDigitsVal ds), rest)
    | ',' :: r2 =>
      let (ds2, r3) := rxDigits r2
      match r3 with
      | '}' :: rest =>
        if ds2.isEmpty then some (rxDigitsVal ds, none, rest)
        else some (rxDigitsVal ds, some (rxDigitsVal ds2), rest)
      | _ => none
    | _ => none

/-- Postfix `*`, `+`, `?` and `{...}` loop after an atom. -/
def rxPSuffix : Nat → Rx → List Char → Option (Rx × List Char)
  | 0, _, _ => none
  | fuel + 1, a, s =>
    match s with
    | '*' :: rest => rxPSuffix fuel (.star a) rest
    | '+' :: rest => rxPSuffix fuel (rxCat a (.star a)) rest
    | '?' :: rest => rxPSuffix fuel (rxAlt a .eps) rest
    | '{' :: rest =>
      match rxBraceCount rest with
      | some (lo, some hi, rest') =>
        if lo ≤ hi then rxPSuffix fuel (rxCat (rxPow a lo) (rxUpTo a (hi - lo))) rest'
        else none
      | some (lo, none, rest') => rxPSuffix fuel (rxCat (rxPow a lo) (.star a)) rest'
      | none => rxPSuffix fuel (rxCat a (.cls false [.one '{'])) rest
    | _ => some (a, s)

/-- The recursive-descent core, one function so that it reduces in the
kernel: level 0 parses an alternation, level 1 a concatenation, level 2 a
factor (atom with repetition suffix), level 3 an atom. -/
def rxP : Nat → Nat → List Char → Option (Rx × List Char)
  | 0, _, _ => none
  | fuel + 1, 0, s =>
    match rxP fuel 1 s with
    | none => none
    | some (a, rest) =>
      match rest with
      | '|' :: rest' =>
        match rxP fuel 0 rest' with
        | some (b, rest'') => some (.alt a b, rest'')
        | none => none
      | _ => some (a, rest)
  | fuel + 1, 1, s =>
    match s with
    | [] => some (.eps, [])
    | ')' :: _ => some (.eps, s)
    | '|' :: _ => some (.eps, s)
    | _ =>
      match rxP fuel 2 s with
      | none => none
      | some (a, rest) =>
        match rxP fuel 1 rest with
        | some (b, rest') => some (rxCat a b, rest')
        | none => none
  | fuel + 1, 2, s =>
    match rxP fuel 3 s with
    | none => none
    | some (a, rest) => rxPSuffix (fuel + 1) a rest
  | fuel + 1, _, s =>
    match s with
    | [] => none
    | '(' :: rest =>
      match rxP fuel 0 rest with
      | some (a, ')' :: rest') => some (a, rest')
      | _ => none
    | ')' :: _ => none
    | '|' :: _ => none
    | '*' :: _ => none
    | '+' :: _ => none
    | '?' :: _ => none
    | '^' :: _ => none
    | '$' :: _ => none
    | ']' :: rest => some (.cls false [.one ']'], rest)
    | '.' :: rest => some (rxDot, rest)
    | '[' :: '^' :: rest =>
      match rxClsBody (fuel + 1) rest with
      | some (its, rest') => some (.cls true its, rest')
      | none => none
    | '[' :: rest =>
      match rxClsBody (fuel + 1) rest with
      | some (its, rest') => some (.cls false its, rest')
      | none => none
    | '\\' :: e :: rest =>
      match rxPerlCls e with
      | some r => some (r, rest)
      | none =>
        match rxEscChar e with
        | some c => some (.cls false [.one c], rest)
        | none => none
    | '\\' :: [] => none
    | c :: rest => some (.cls false [.one c], rest)

/-- `regexp.Compile` over the modelled subset: the whole input must parse. -/
def rxCompile (pat : String) : Option Rx :=
  match rxP ((pat.length + 1) * 8) 0 pat.data with
  | some (r, []) => some r
  | _ => none

/-! ### `hasWarning` (cmd.go)

The Go function iterates over the `WarningsAsErrors` map; a Go map has no
specified iteration order, so the model takes an association list — one
enumeration of the map — and the order-sensitivity of the result is proved
about permutations of that list.  The compile-failure message stands in for
the wrapped `regexp` error text (`cannot compile regex for warning
detection: %w`); no claim depends on the underlying error's exact words. -/

def warnPat (p : String) : String := "\nWarning: " ++ p ++ "[^\n]*\n"

def warnErrMsg (msg : String) (ms : List (List Char)) : String :=
  "warning(s) were found: " ++ msg ++ ":\n" ++ String.mk ms.flatten

def compileErrMsg (p : String) : String :=
  "cannot compile regex for warning detection: " ++ warnPat p

/-- The matches of `\nWarning: <p>[^\n]*\n` in `out` (empty when `p` does
not compile). -/
def warnMatches (p : String) (out : String) : List (List Char) :=
  match rxCompile (warnPat p) with
  | some r => rxFindAll r out.data
  | none => []

def hasWarningL : List (String × String) → String → Option String
  | [], _ => none
  | (pat, msg) :: rest, out =>
    match rxCompile (warnPat pat) with
    | none => some (compileErrMsg pat)
    | some r =>
      let ms := rxFindAll r out.data
      if ms.isEmpty then hasWarningL rest out
      else some (warnErrMsg msg ms)

def containsStr (needle hay : String) : Bool := containsTok needle.data hay.data

/-! ### Options, commands, and the process boundary

`Options`, `GetCommonOptions`, `validateOptions` and
`retry.DoWithRetryableErrorsE` are declared in parts of the repository not
among the sources here (`options.go`, the `retry` module), so they are
modelled from the spec.  The external process boundary (`shell.RunCommandE`
and `shell.RunCommandAndGetOutputE`) is a parameter: an oracle
`exec : Command → String × Option String` giving combined output and error
for a command.  The wrapper functions additionally return the list of
commands handed to the oracle, in execution order, and the number of
attempts the retry loop made, so claims about what runs (and how often)
are statements about that trace. -/

/-- `shell.Command` as the wrapper fills it (the probe leaves the working
directory and environment at their zero values). -/
structure Command where
  command : String
  args : List String
  workingDir : String
  env : List (String × String)
deriving DecidableEq

/-- Modelled from the spec: the `Options` struct of the terragrunt module is
not among the sources; its fields follow section 3 of the spec (binary path,
working directory, environment mapping, extra argument sequence,
retryable-error mapping, maximum retry count, inter-retry delay,
warning-to-error mapping; the logger is omitted as behaviour-free).  The Go
maps are carried as association lists, i.e. one iteration order. -/
structure Options where
  terragruntBinary : String
  terragruntDir : String
  envVars : List (String × String)
  extraArgs : List String
  retryableTerraformErrors : List (String × String)
  maxRetries : Nat
  timeBetweenRetries : Nat
  warningsAsErrors : List (String × String)
deriving DecidableEq

def StackCommandRun : String := "run"

/-- `hasWarning` from cmd.go, over one enumeration of `WarningsAsErrors`. -/
def hasWarning (opts : Options) (commandOutput : String) : Option String :=
  hasWarningL opts.warningsAsErrors commandOutput

/-- Modelled from the spec: `GetCommonOptions` is not among the sources; the
builder contract of section 4.1 (the final vector is the probe prefix, then
`stack`, then the subcommand, then the separator-adjusted arguments) leaves
it the identity on the argument vector and the options. -/
def GetCommonOptions (opts : Options) (commandArgs : List String) :
    Options × List String :=
  (opts, commandArgs)

/-- Modelled from the spec: `validateOptions` is not among the sources; per
the section 3 invariant, binary path and working directory must be non-empty
before any command executes, and a violation is a configuration error. -/
def validateOptions (options : Options) : Option String :=
  if options.terragruntBinary = "" then some "TerragruntBinary is required"
  else if options.terragruntDir = "" then some "TerragruntDir is required"
  else none

/-- `generateCommand` from cmd.go. -/
def generateCommand (terragruntOptions : Options) (commandArgs : List String) : Command :=
  { command := terragruntOptions.terragruntBinary
    args := commandArgs
    workingDir := terragruntOptions.terragruntDir
    env := terragruntOptions.envVars }

/-- Does the error text match some pattern of the retryable-error mapping? -/
def isRetryableErr (retryable : List (String × String)) (e : String) : Bool :=
  retryable.any fun pm =>
    match rxCompile pm.1 with
    | some r => rxSearch r e.data
    | none => false

/-- The retry recursion: `fuel` is the number of retries still allowed, and
the result carries how many attempts ran.  The action is the same on every
attempt (the oracle is deterministic), matching a persistent failure. -/
def doRetryAux (retryable : List (String × String)) (action : String × Option String) :
    Nat → Nat × (String × Option String)
  | 0 => (1, action)
  | n + 1 =>
    match action with
    | (out, none) => (1, (out, none))
    | (out, some e) =>
      if isRetryableErr retryable e then
        let r := doRetryAux retryable action n
        (r.1 + 1, r.2)
      else (1, (out, some e))

/-- Modelled from the spec: `retry.DoWithRetryableErrorsE` is not among the
sources.  Per sections 4.2 and 7: on failure the raw error text is matched
against the retryable mapping; a match consumes one of `maxRetries` budget
units and the call repeats, a non-match is surfaced immediately; exhausting
the budget surfaces the last failure (`maxRetries = 2` means three attempts
in total, per the section 8 property).  The inter-attempt delay is timing
only and is not modelled. -/
def DoWithRetryableErrorsE (retryable : List (String × String)) (maxRetries : Nat)
    (action : String × Option String) : Nat × (String × Option String) :=
  doRetryAux retryable action maxRetries

/-- The closure passed to the retry helper in cmd.go and stack_output.go: a
process failure is returned as-is; on success the output goes through the
warning classifier, whose error is returned through the same error value. -/
def stackActionResult (warnings : List (String × String))
    (execResult : String × Option String) : String × Option String :=
  match execResult with
  | (out, some e) => (out, some e)
  | (out, none) =>
    match hasWarningL warnings out with
    | some w => (out, some w)
    | none => (out, none)

/-- The capability-probe invocation `shell.Command{Command: binary, Args:
["-experiment", "stack"]}` from cmd.go. -/
def probeCommand (opts : Options) : Command :=
  { command := opts.terragruntBinary
    args := ["-experiment", "stack"]
    workingDir := ""
    env := [] }

/-- The base vector of cmd.go: `stack`, the subcommand when non-empty, with
`-experiment stack` prepended when the probe succeeded. -/
def stackCommandArgs (experimentSupported : Bool) (subCommand : String) : List String :=
  (if experimentSupported then ["-experiment", "stack"] else []) ++
    ("stack" :: (if subCommand = "" then [] else [subCommand]))

/-- The full vector including the separator rule of cmd.go lines 58–62. -/
def stackFinalArgs (experimentSupported : Bool) (subCommand : String)
    (additionalArgs : List String) : List String :=
  stackCommandArgs experimentSupported subCommand ++
    (if subCommand = StackCommandRun then "--" :: additionalArgs else additionalArgs)

/-- `runTerragruntStackSubCommandE` from cmd.go over the oracle: probes for
`-experiment stack` support, builds the vector, and runs the command under
the retry helper; the returned trace is the probe followed by one command
per attempt. -/
def runTerragruntStackSubCommandE (exec : Command → String × Option String)
    (opts : Options) (subCommand : String) (additionalArgs : List String) :
    List Command × (Nat × (String × Option String)) :=
  let experimentSupported := (exec (probeCommand opts)).2.isNone
  let commandArgs := stackCommandArgs experimentSupported subCommand
  let (terragruntOptions, finalArgs0) := GetCommonOptions opts commandArgs
  let finalArgs := finalArgs0 ++
    (if subCommand = StackCommandRun then "--" :: additionalArgs else additionalArgs)
  let execCommand := generateCommand terragruntOptions finalArgs
  let (attempts, result) := DoWithRetryableErrorsE
    terragruntOptions.retryableTerraformErrors terragruntOptions.maxRetries
    (stackActionResult opts.warningsAsErrors (exec execCommand))
  (probeCommand opts :: List.replicate attempts execCommand, (attempts, result))

/-- `runTerragruntStackCommandE`: the `run` subcommand path. -/
def runTerragruntStackCommandE (exec : Command → String × Option String)
    (opts : Options) (additionalArgs : List String) :
    List Command × (Nat × (String × Option String)) :=
  runTerragruntStackSubCommandE exec opts StackCommandRun additionalArgs

/-- `terragruntStackCommandE`: the bare stack-command path. -/
def terragruntStackCommandE (exec : Command → String × Option String)
    (opts : Options) (additionalArgs : List String) :
    List Command × (Nat × (String × Option String)) :=
  runTerragruntStackSubCommandE exec opts "" additionalArgs

/-- `runTerragruntStackOutputCommand` from stack_output.go: validates the
options, then runs `stack output <args>` (no probe, no separator) under the
same retry helper. -/
def runTerragruntStackOutputCommand (exec : Command → String × Option String)
    (options : Options) (outputArgs : List String) :
    List Command × (Nat × (String × Option String)) :=
  match validateOptions options with
  | some e => ([], (0, ("", some e)))
  | none =>
    let commandArgs := "stack" :: "output" :: outputArgs
    let (terragruntOptions, finalArgs) := GetCommonOptions options commandArgs
    let execCommand := generateCommand terragruntOptions finalArgs
    let (attempts, result) := DoWithRetryableErrorsE
      terragruntOptions.retryableTerraformErrors terragruntOptions.maxRetries
      (stackActionResult options.warningsAsErrors (exec execCommand))
    (List.replicate attempts execCommand, (attempts, result))

/-- `TgOutputE` from stack_output.go: `stack output -no-color <extra> <key>`,
cleaned through `cleanTerragruntOutput`. -/
def TgOutputE (exec : Command → String × Option String) (options : Options)
    (key : String) : List Command × Except String String :=
  let outputArgs := "-no-color" :: (options.extraArgs ++ (if key = "" then [] else [key]))
  let (trace, res) := runTerragruntStackOutputCommand exec options outputArgs
  match res.2 with
  | (_, some e) => (trace, .error e)
  | (rawOutput, none) => (trace, .ok (cleanTerragruntOutput rawOutput))

/-! ### A JSON model for `cleanTerragruntJson`

`cleanTerragruntJson` filters log lines and then round-trips the remainder
through `encoding/json` (`Unmarshal` into `interface{}`, then
`MarshalIndent(_, "", "  ")`).  The library is modelled from the spec
(section 4.4): parse the filtered text as a JSON document, fail on a parse
error, and re-serialize with stable field order preservation and two-space
indentation.  Accordingly objects are association lists keeping textual
order, and numbers keep their source token (sign, integer, fraction and
exponent parts verbatim), so re-serialization is textual and exact; the
HTML escaping and key sorting of the Go encoder are value-invisible under
re-parsing and are not modelled.

Both the parser and the renderer are single fuel-indexed functions (so they
reduce in the kernel); `jsonUnmarshal` runs the parser with fuel `2·n + 2`
for an input of length `n`, which the round-trip proof shows is enough. -/

def digitCh (c : Char) : Bool := '0' ≤ c && c ≤ '9'

/-- A JSON number literal, parts kept verbatim: sign, integer digits,
fraction digits (empty means no fraction), exponent marker (`e`/`E`),
exponent sign, exponent digits. -/
structure NumLit where
  neg : Bool
  ip : List Char
  fp : List Char
  eMark : Option Char
  eSign : Option Char
  eDs : List Char
deriving DecidableEq

/-- The JSON integer-part grammar: `0`, or a nonzero digit then digits. -/
def ipOK : List Char → Bool
  | [] => false
  | c :: rest => if c = '0' then rest.isEmpty else digitCh c && rest.all digitCh

def expOK (m : Option Char) (sg : Option Char) (ds : List Char) : Bool :=
  match m with
  | none => sg.isNone && ds.isEmpty
  | some mc =>
    (mc == 'e' || mc == 'E') &&
      (match sg with
       | none => true
       | some s => s == '+' || s == '-') &&
      !ds.isEmpty && ds.all digitCh

def numOK (n : NumLit) : Bool :=
  ipOK n.ip && n.fp.all digitCh && expOK n.eMark n.eSign n.eDs

/-- A JSON value; objects keep insertion (textual) order. -/
inductive Jval where
  | null
  | bool (b : Bool)
  | num (n : NumLit)
  | str (s : List Char)
  | arr (es : List Jval)
  | obj (ms : List (List Char × Jval))

/-- JSON whitespace (RFC 8259, as skipped by the Go decoder). -/
def jWs (c : Char) : Bool := c == ' ' || c == '\t' || c == '\n' || c == '\r'

def skipWsGo : List Char → List Char
  | [] => []
  | c :: cs => if jWs c then skipWsGo cs else c :: cs

def takeDigits (s : List Char) : List Char × List Char :=
  (s.takeWhile digitCh, s.dropWhile digitCh)

def parseExpTail (neg : Bool) (ip fp : List Char) (m : Char) (s : List Char) :
    Option (NumLit × List Char) :=
  let (sg, s1) : Option Char × List Char :=
    match s with
    | [] => (none, [])
    | c :: r => if c = '+' then (some '+', r) else if c = '-' then (some '-', r) else (none, c :: r)
  let (ds, s2) := takeDigits s1
  if ds.isEmpty then none else some (⟨neg, ip, fp, some m, sg, ds⟩, s2)

def parseExpPart (neg : Bool) (ip fp : List Char) (s : List Char) :
    Option (NumLit × List Char) :=
  match s with
  | [] => some (⟨neg, ip, fp, none, none, []⟩, [])
  | c :: r =>
    if c = 'e' then parseExpTail neg ip fp 'e' r
    else if c = 'E' then parseExpTail neg ip fp 'E' r
    else some (⟨neg, ip, fp, none, none, []⟩, c :: r)

def parseFracPart (neg : Bool) (ip : List Char) (s : List Char) :
    Option (NumLit × List Char) :=
  match s with
  | [] => parseExpPart neg ip [] []
  | c :: r =>
    if c = '.' then
      let (fp, s1) := takeDigits r
      if fp.isEmpty then none else parseExpPart neg ip fp s1
    else parseExpPart neg ip [] (c :: r)

/-- Parse a number literal (maximal munch), enforcing the JSON grammar. -/
def parseNumLit (s : List Char) : Option (NumLit × List Char) :=
  let (neg, s1) : Bool × List Char :=
    match s with
    | [] => (false, [])
    | c :: r => if c = '-' then (true, r) else (false, c :: r)
  let (ip, s2) := takeDigits s1
  if ipOK ip then parseFracPart neg ip s2 else none

def hexVal (c : Char) : Option Nat :=
  let n := c.toNat
  if 48 ≤ n && n ≤ 57 then some (n - 48)
  else if 97 ≤ n && n ≤ 102 then some (n - 87)
  else if 65 ≤ n && n ≤ 70 then some (n - 55)
  else none

/-- The character a `\uXXXX` escape denotes (the replacement character for
surrogate halves, as the Go decoder produces for a lone surrogate). -/
def uChar (v : Nat) : Char :=
  if 0xd800 ≤ v && v ≤ 0xdfff then '�' else Char.ofNat v

def unescCh : Char → Option Char
  | 'n' => some '\n'
  | 't' => some '\t'
  | 'r' => some '\r'
  | 'b' => some '\x08'
  | 'f' => some '\x0c'
  | '"' => some '"'
  | '\\' => some '\\'
  | '/' => some '/'
  | _ => none

/-- The body of a string literal after the opening quote: decoded contents
and the remainder after the closing quote.  Raw control characters are
rejected, as the Go decoder rejects them. -/
def parseStrBody : List Char → Option (List Char × List Char)
  | [] => none
  | c :: rest =>
    if c = '"' then some ([], rest)
    else if c = '\\' then
      match rest with
      | 'u' :: a :: b :: c2 :: d :: rest' =>
        (match hexVal a, hexVal b, hexVal c2, hexVal d with
         | some va, some vb, some vc, some vd =>
           match parseStrBody rest' with
           | some (s, r) => some (uChar (((va * 16 + vb) * 16 + vc) * 16 + vd) :: s, r)
           | none => none
         | _, _, _, _ => none)
      | e :: rest' =>
        (match unescCh e with
         | some ch =>
           match parseStrBody rest' with
           | some (s, r) => some (ch :: s, r)
           | none => none
         | none => none)
      | [] => none
    else if c.toNat < 32 then none
    else
      match parseStrBody rest with
      | some (s, r) => some (c :: s, r)
      | none => none

/-- The three parsing modes share one fuel-indexed function. -/
inductive PRes where
  | v (j : Jval)
  | vs (l : List Jval)
  | ms (l : List (List Char × Jval))

/-- The parser: mode 0 a value, mode 1 the items of a non-empty array up to
and including `]`, mode 2 the members of a non-empty object up to and
including the closing brace. -/
def parseCore : Nat → Nat → List Char → Option (PRes × List Char)
  | 0, _, _ => none
  | f + 1, 0, s =>
    (match skipWsGo s with
     | [] => none
     | c :: r =>
       if c = 'n' then
         match r with
         | 'u' :: 'l' :: 'l' :: r' => some (.v .null, r')
         | _ => none
       else if c = 't' then
         match r with
         | 'r' :: 'u' :: 'e' :: r' => some (.v (.bool true), r')
         | _ => none
       else if c = 'f' then
         match r with
         | 'a' :: 'l' :: 's' :: 'e' :: r' => some (.v (.bool false), r')
         | _ => none
       else if c = '"' then
         match parseStrBody r with
         | some (str, r') => some (.v (.str str), r')
         | none => none
       else if c = '[' then
         match skipWsGo r with
         | [] => none
         | c2 :: r2 =>
           if c2 = ']' then some (.v (.arr []), r2)
           else
             match parseCore f 1 r with
             | some (.vs es, r') => some (.v (.arr es), r')
             | _ => none
       else if c = '{' then
         match skipWsGo r with
         | [] => none
         | c2 :: r2 =>
           if c2 = '}' then some (.v (.obj []), r2)
           else
             match parseCore f 2 r with
             | some (.ms ms, r') => some (.v (.obj ms), r')
             | _ => none
       else
         match parseNumLit (c :: r) with
         | some (n, r') => some (.v (.num n), r')
         | none => none)
  | f + 1, 1, s =>
    (match parseCore f 0 s with
     | some (.v e, r) =>
       (match skipWsGo r with
        | [] => none
        | c :: r' =>
          if c = ',' then
            (match parseCore f 1 r' with
             | some (.vs es, r'') => some (.vs (e :: es), r'')
             | _ => none)
          else if c = ']' then some (.vs [e], r')
          else none)
     | _ => none)
  | f + 1, 2, s =>
    (match skipWsGo s with
     | [] => none
     | c :: r =>
       if c = '"' then
         (match parseStrBody r with
          | some (k, r1) =>
            (match skipWsGo r1 with
             | [] => none
             | c1 :: r2 =>
               if c1 = ':' then
                 (match parseCore f 0 r2 with
                  | some (.v v, r3) =>
                    (match skipWsGo r3 with
                     | [] => none
                     | c2 :: r4 =>
                       if c2 = ',' then
                         (match parseCore f 2 r4 with
                          | some (.ms ms, r5) => some (.ms ((k, v) :: ms), r5)
                          | _ => none)
                       else if c2 = '}' then some (.ms [(k, v)], r4)
                       else none)
                  | _ => none)
               else none)
          | none => none)
       else none)
  | _ + 1, _ + 3, _ => none

/-- `json.Unmarshal`: a full document is one value and trailing whitespace. -/
def jsonUnmarshal (s : List Char) : Option Jval :=
  match parseCore (2 * s.length + 2) 0 s with
  | some (.v j, rest) => if (skipWsGo rest).isEmpty then some j else none
  | _ => none

def hexDig (n : Nat) : Char :=
  if n < 10 then Char.ofNat ('0'.toNat + n) else Char.ofNat ('a'.toNat + (n - 10))

/-- JSON string escaping: quote, backslash, the common control escapes, and
`\u00XX` for the remaining control characters. -/
def escCh (c : Char) : List Char :=
  if c = '"' then ['\\', '"']
  else if c = '\\' then ['\\', '\\']
  else if c = '\n' then ['\\', 'n']
  else if c = '\t' then ['\\', 't']
  else if c = '\r' then ['\\', 'r']
  else if c.toNat < 32 then ['\\', 'u', '0', '0', hexDig (c.toNat / 16), hexDig (c.toNat % 16)]
  else [c]

def renderStr (s : List Char) : List Char :=
  '"' :: ((s.map escCh).flatten ++ ['"'])

def negRender (b : Bool) : List Char := if b then ['-'] else []

def fracRender (fp : List Char) : List Char := if fp.isEmpty then [] else '.' :: fp

def sgRender (sg : Option Char) : List Char :=
  match sg with
  | none => []
  | some s => [s]

def expRender (m : Option Char) (sg : Option Char) (ds : List Char) : List Char :=
  match m with
  | none => []
  | some mc => mc :: (sgRender sg ++ ds)

def renderNum (n : NumLit) : List Char :=
  negRender n.neg ++ n.ip ++ fracRender n.fp ++ expRender n.eMark n.eSign n.eDs

def padSp : Nat → List Char
  | 0 => []
  | n + 1 => ' ' :: padSp n

/-- The renderer (`MarshalIndent(_, "", "  ")` shape): one fuel-indexed
function over the three shapes; `none` only on fuel exhaustion. -/
def renderCore : Nat → Nat → Jval ⊕ (List Jval ⊕ List (List Char × Jval)) →
    Option (List Char)
  | 0, _, _ => none
  | _ + 1, _, .inl .null => some "null".data
  | _ + 1, _, .inl (.bool true) => some "true".data
  | _ + 1, _, .inl (.bool false) => some "false".data
  | _ + 1, _, .inl (.num n) => some (renderNum n)
  | _ + 1, _, .inl (.str s) => some (renderStr s)
  | _ + 1, _, .inl (.arr []) => some ['[', ']']
  | f + 1, ind, .inl (.arr (e :: es)) =>
    (match renderCore f (ind + 2) (.inr (.inl (e :: es))) with
     | some items => some ('[' :: '\n' :: (items ++ '\n' :: (padSp ind ++ [']'])))
     | none => none)
  | _ + 1, _, .inl (.obj []) => some ['{', '}']
  | f + 1, ind, .inl (.obj (m :: ms)) =>
    (match renderCore f (ind + 2) (.inr (.inr (m :: ms))) with
     | some items => some ('{' :: '\n' :: (items ++ '\n' :: (padSp ind ++ ['}'])))
     | none => none)
  | _ + 1, _, .inr (.inl []) => some []
  | f + 1, ind, .inr (.inl [e]) =>
    (match renderCore f ind (.inl e) with
     | some v => some (padSp ind ++ v)
     | none => none)
  | f + 1, ind, .inr (.inl (e :: e' :: es)) =>
    (match renderCore f ind (.inl e), renderCore f ind (.inr (.inl (e' :: es))) with
     | some v, some tl => some ((padSp ind ++ v) ++ ',' :: '\n' :: tl)
     | _, _ => none)
  | _ + 1, _, .inr (.inr []) => some []
  | f + 1, ind, .inr (.inr [(k, v)]) =>
    (match renderCore f ind (.inl v) with
     | some rv => some (padSp ind ++ (renderStr k ++ ':' :: ' ' :: rv))
     | none => none)
  | f + 1, ind, .inr (.inr ((k, v) :: m :: ms)) =>
    (match renderCore f ind (.inl v), renderCore f ind (.inr (.inr (m :: ms))) with
     | some rv, some tl =>
       some ((padSp ind ++ (renderStr k ++ ':' :: ' ' :: rv)) ++ ',' :: '\n' :: tl)
     | _, _ => none)

/-- Fuel that suffices for `renderCore` (shown by `renderCore_total`). -/
def jvalFuel : Jval → Nat
  | .null => 1
  | .bool _ => 1
  | .num _ => 1
  | .str _ => 1
  | .arr [] => 1
  | .arr (e :: es) => 1 + (jvalFuel e + jvalFuel (.arr es))
  | .obj [] => 1
  | .obj ((_, v) :: ms) => 1 + (jvalFuel v + jvalFuel (.obj ms))

/-- `json.MarshalIndent(v, "", "  ")`. -/
def jsonMarshalIndent (j : Jval) : List Char :=
  (renderCore (jvalFuel j) 0 (.inl j)).getD []

/-- `cleanTerragruntJson` on character lists: the shared line filter, then
the modelled unmarshal/re-marshal; `none` is the parse-failure path. -/
def cleanTerragruntJsonL (input : List Char) : Option (List Char) :=
  let ansiClean := tgJoinLines (tgFilteredLines input)
  (jsonUnmarshal ansiClean).map jsonMarshalIndent

def cleanTerragruntJson (input : String) : Option String :=
  (cleanTerragruntJsonL input.data).map String.mk

/-- `TgOutputJsonE` from stack_output.go: `stack output -no-color -json
<extra> <key>`, cleaned through `cleanTerragruntJson`. -/
def TgOutputJsonE (exec : Command → String × Option String) (options : Options)
    (key : String) : List Command × Except String String :=
  let outputArgs := "-no-color" :: "-json" ::
    (options.extraArgs ++ (if key = "" then [] else [key]))
  let (trace, res) := runTerragruntStackOutputCommand exec options outputArgs
  match res.2 with
  | (_, some e) => (trace, .error e)
  | (rawOutput, none) =>
    match cleanTerragruntJson rawOutput with
    | some cleaned => (trace, .ok cleaned)
    | none => (trace, .error "invalid character in JSON input")

/-- Can the head of `rest` extend a digit run? -/
def headNotDigit : List Char → Bool
  | [] => true
  | c :: _ => !digitCh c

/-- Can the head of `rest` extend a rendered number literal? -/
def numStop : List Char → Bool
  | [] => true
  | c :: _ => !(digitCh c || c == '.' || c == 'e' || c == 'E')

/-! ### Well-formed values, render totality, and head shapes -/

/-- Values the parser can produce: number literals satisfy the grammar. -/
inductive JWF : Jval → Prop where
  | null : JWF .null
  | bool (b : Bool) : JWF (.bool b)
  | num (n : NumLit) (h : numOK n = true) : JWF (.num n)
  | str (s : List Char) : JWF (.str s)
  | arr (es : List Jval) (h : ∀ e ∈ es, JWF e) : JWF (.arr es)
  | obj (ms : List (List Char × Jval)) (h : ∀ kv ∈ ms, JWF kv.2) : JWF (.obj ms)

/-- The fuel a `renderCore` argument needs. -/
def modeFuel : Jval ⊕ (List Jval ⊕ List (List Char × Jval)) → Nat
  | .inl j => jvalFuel j
  | .inr (.inl []) => 1
  | .inr (.inl (e :: es)) => jvalFuel e + jvalFuel (.arr es)
  | .inr (.inr []) => 1
  | .inr (.inr ((_, v) :: ms)) => jvalFuel v + jvalFuel (.obj ms)

/-! ### The round-trip induction -/

/-- The value-level round-trip property: a rendered value, under any leading
whitespace and any remainder that cannot extend a number, parses back. -/
def RtVal (e : Jval) : Prop :=
  ∀ (rf ind : Nat) (out : List Char), renderCore rf ind (.inl e) = some out →
    ∀ (f : Nat) (ws0 rest : List Char), (∀ c ∈ ws0, jWs c = true) →
      2 * out.length + 2 ≤ f → numStop rest = true →
      parseCore f 0 (ws0 ++ (out ++ rest)) = some (.v e, rest)

/-- Well-formedness of a parse result, by mode. -/
def PSound : PRes → Prop
  | .v j => JWF j
  | .vs vs => ∀ e ∈ vs, JWF e
  | .ms ms => ∀ kv ∈ ms, JWF kv.2

theorem sanity_check1 : cleanTerragruntOutput " x" = "x" := by decide

theorem sanity_check2 : cleanTerragruntOutput "\"my-bucket\"" = "my-bucket" := by decide

theorem sanity_check3 :
    cleanTerragruntOutput
      "time=2023-07-11T10:30:45Z level=info prefix=terragrunt binary=terragrunt msg=\"Initializing...\"\n\"my-bucket-name\"" =
    "my-bucket-name" := by decide

theorem sanity_check4 : (rxCompile "Deprecat").isSome = true := by decide

theorem sanity_check5 : rxCompile "(" = none := by decide

theorem sanity_check6 : (rxCompile "\nWarning: Deprecat[^\n]*\n").isSome = true := by decide

theorem sanity_check7 : rxCompile "\nWarning: ([^\n]*\n" = none := by decide

theorem sanity_check8 :
    (match rxCompile "\nWarning: Deprecat[^\n]*\n" with
     | some r => rxFindAll r "ok\nWarning: Deprecated option X\ndone\n".data
     | none => []) = ["\nWarning: Deprecated option X\n".data] := by decide

theorem sanity_check9 :
    hasWarningL [("Deprecat", "deprecated features used")]
      "ok\nWarning: Deprecated option X\ndone" =
    some "warning(s) were found: deprecated features used:\n\nWarning: Deprecated option X\n" := by
  decide

/-! #### Helper lemmas about `hasWarningL` -/

theorem dropLit_append (n b : List Char) : dropLit n (n ++ b) = some b := by
  induction n with
  | nil => rfl
  | cons c cs ih => simp [dropLit, ih]

theorem containsTok_self_append (n b : List Char) : containsTok n (n ++ b) = true := by
  cases n with
  | nil => cases b <;> simp [containsTok, dropLit]
  | cons x xs =>
    have h := dropLit_append (x :: xs) b
    rw [List.cons_append] at h
    rw [List.cons_append, containsTok, h]
    simp

theorem containsTok_of_append (n a b : List Char) :
    containsTok n (a ++ (n ++ b)) = true := by
  induction a with
  | nil => rw [List.nil_append]; exact containsTok_self_append n b
  | cons c cs ih =>
    rw [List.cons_append]
    cases n with
    | nil => simpa [containsTok] using Or.inr ih
    | cons y ys => rw [containsTok, ih]; simp

theorem containsTok_of_decomp (n s : List Char) (h : ∃ a b, s = a ++ (n ++ b)) :
    containsTok n s = true := by
  obtain ⟨a, b, rfl⟩ := h
  exact containsTok_of_append n a b

theorem strData_append (a b : String) : (a ++ b).data = a.data ++ b.data := rfl

theorem warnErrMsg_data (msg : String) (ms : List (List Char)) :
    (warnErrMsg msg ms).data =
      "warning(s) were found: ".data ++ (msg.data ++ (":\n".data ++ ms.flatten)) := by
  simp only [warnErrMsg, strData_append, List.append_assoc]

theorem containsStr_warnErrMsg (msg : String) (ms : List (List Char)) :
    containsStr msg (warnErrMsg msg ms) = true := by
  rw [containsStr, warnErrMsg_data]
  exact containsTok_of_decomp _ _ ⟨"warning(s) were found: ".data, ":\n".data ++ ms.flatten, rfl⟩

theorem containsTok_warnErrMsg_of_mem (msg : String) (ms : List (List Char))
    (mt : List Char) (hmt : mt ∈ ms) :
    containsTok mt (warnErrMsg msg ms).data = true := by
  obtain ⟨s, t, rfl⟩ := List.append_of_mem hmt
  rw [warnErrMsg_data]
  refine containsTok_of_decomp _ _
    ⟨"warning(s) were found: ".data ++ (msg.data ++ (":\n".data ++ s.flatten)), t.flatten, ?_⟩
  simp [List.flatten_append, List.append_assoc]

theorem warnMatches_eq (p out : String) (r : Rx) (hr : rxCompile (warnPat p) = some r) :
    warnMatches p out = rxFindAll r out.data := by
  unfold warnMatches
  rw [hr]

theorem hasWarningL_cons_some (pat msg : String) (rest : List (String × String))
    (out : String) (r : Rx) (hr : rxCompile (warnPat pat) = some r) :
    hasWarningL ((pat, msg) :: rest) out =
      if (rxFindAll r out.data).isEmpty then hasWarningL rest out
      else some (warnErrMsg msg (rxFindAll r out.data)) := by
  show (match rxCompile (warnPat pat) with
    | none => some (compileErrMsg pat)
    | some r =>
      let ms := rxFindAll r out.data
      if ms.isEmpty then hasWarningL rest out
      else some (warnErrMsg msg ms)) = _
  rw [hr]

theorem hasWarningL_cons_none (pat msg : String) (rest : List (String × String))
    (out : String) (hr : rxCompile (warnPat pat) = none) :
    hasWarningL ((pat, msg) :: rest) out = some (compileErrMsg pat) := by
  show (match rxCompile (warnPat pat) with
    | none => some (compileErrMsg pat)
    | some r =>
      let ms := rxFindAll r out.data
      if ms.isEmpty then hasWarningL rest out
      else some (warnErrMsg msg ms)) = _
  rw [hr]

theorem hasWarningL_none_of_no_match (ws : List (String × String)) (out : String)
    (h : ∀ pm ∈ ws, (rxCompile (warnPat pm.1)).isSome = true ∧ warnMatches pm.1 out = []) :
    hasWarningL ws out = none := by
  induction ws with
  | nil => rfl
  | cons pm rest ih =>
    obtain ⟨pat, msg⟩ := pm
    obtain ⟨hc, hm⟩ := h (pat, msg) (List.mem_cons_self _ _)
    obtain ⟨r, hr⟩ := Option.isSome_iff_exists.mp hc
    rw [hasWarningL_cons_some pat msg rest out r hr]
    rw [warnMatches_eq pat out r hr] at hm
    simp only [hm, List.isEmpty_nil, if_true]
    exact ih fun q hq => h q (List.mem_cons_of_mem _ hq)

theorem hasWarningL_first_match (l1 : List (String × String)) (p m : String)
    (l2 : List (String × String)) (out : String)
    (h1 : ∀ pm ∈ l1, (rxCompile (warnPat pm.1)).isSome = true ∧ warnMatches pm.1 out = [])
    (hp : (rxCompile (warnPat p)).isSome = true)
    (hm : warnMatches p out ≠ []) :
    hasWarningL (l1 ++ (p, m) :: l2) out = some (warnErrMsg m (warnMatches p out)) := by
  induction l1 with
  | nil =>
    obtain ⟨r, hr⟩ := Option.isSome_iff_exists.mp hp
    rw [List.nil_append, hasWarningL_cons_some p m l2 out r hr]
    rw [warnMatches_eq p out r hr] at hm ⊢
    rw [if_neg (by simpa [List.isEmpty_iff] using hm)]
  | cons pm rest ih =>
    obtain ⟨pat, msg⟩ := pm
    obtain ⟨hc, hmm⟩ := h1 (pat, msg) (List.mem_cons_self _ _)
    obtain ⟨r, hr⟩ := Option.isSome_iff_exists.mp hc
    rw [List.cons_append, hasWarningL_cons_some pat msg _ out r hr]
    rw [warnMatches_eq pat out r hr] at hmm
    simp only [hmm, List.isEmpty_nil, if_true]
    exact ih fun q hq => h1 q (List.mem_cons_of_mem _ hq)

theorem hasWarningL_compile_fail (l1 : List (String × String)) (p m : String)
    (l2 : List (String × String)) (out : String)
    (h1 : ∀ pm ∈ l1, (rxCompile (warnPat pm.1)).isSome = true ∧ warnMatches pm.1 out = [])
    (hp : rxCompile (warnPat p) = none) :
    hasWarningL (l1 ++ (p, m) :: l2) out = some (compileErrMsg p) := by
  induction l1 with
  | nil => rw [List.nil_append, hasWarningL_cons_none p m l2 out hp]
  | cons pm rest ih =>
    obtain ⟨pat, msg⟩ := pm
    obtain ⟨hc, hmm⟩ := h1 (pat, msg) (List.mem_cons_self _ _)
    obtain ⟨r, hr⟩ := Option.isSome_iff_exists.mp hc
    rw [List.cons_append, hasWarningL_cons_some pat msg _ out r hr]
    rw [warnMatches_eq pat out r hr] at hmm
    simp only [hmm, List.isEmpty_nil, if_true]
    exact ih fun q hq => h1 q (List.mem_cons_of_mem _ hq)

theorem sanity_check10 :
    jsonUnmarshal "\x7b\"a\": 1\x7d".data =
    some (.obj [(['a'], .num ⟨false, ['1'], [], none, none, []⟩)]) := rfl

theorem sanity_check11 :
    jsonUnmarshal (tgJoinLines (tgFilteredLines
      "time=1 level=info prefix=a binary=b msg=x\n\x7b\"a\": \x5btrue, null\x5d\x7d".data)) =
    some (.obj [(['a'], .arr [.bool true, .null])]) := rfl

/-! ### Structure lemmas for the executor models -/

theorem runTerragruntStackSubCommandE_eq (exec : Command → String × Option String)
    (opts : Options) (subCommand : String) (additionalArgs : List String) :
    runTerragruntStackSubCommandE exec opts subCommand additionalArgs =
      (probeCommand opts ::
        List.replicate
          (DoWithRetryableErrorsE opts.retryableTerraformErrors opts.maxRetries
            (stackActionResult opts.warningsAsErrors
              (exec (generateCommand opts
                (stackFinalArgs ((exec (probeCommand opts)).2.isNone) subCommand
                  additionalArgs))))).1
          (generateCommand opts
            (stackFinalArgs ((exec (probeCommand opts)).2.isNone) subCommand additionalArgs)),
       DoWithRetryableErrorsE opts.retryableTerraformErrors opts.maxRetries
         (stackActionResult opts.warningsAsErrors
           (exec (generateCommand opts
             (stackFinalArgs ((exec (probeCommand opts)).2.isNone) subCommand
               additionalArgs))))) := rfl

theorem doRetryAux_not_retryable (retryable : List (String × String)) (out e : String)
    (n : Nat) (h : isRetryableErr retryable e = false) :
    doRetryAux retryable (out, some e) n = (1, (out, some e)) := by
  cases n with
  | zero => rfl
  | succ k => simp [doRetryAux, h]

theorem runTerragruntStackOutputCommand_args (exec : Command → String × Option String)
    (options : Options) (outputArgs : List String) (c : Command)
    (hc : c ∈ (runTerragruntStackOutputCommand exec options outputArgs).1) :
    c = generateCommand options ("stack" :: "output" :: outputArgs) := by
  unfold runTerragruntStackOutputCommand at hc
  cases hv : validateOptions options with
  | some e => rw [hv] at hc; exact absurd hc (List.not_mem_nil c)
  | none =>
    rw [hv] at hc
    exact List.eq_of_mem_replicate hc

theorem TgOutputE_trace (exec : Command → String × Option String) (options : Options)
    (key : String) :
    (TgOutputE exec options key).1 =
      (runTerragruntStackOutputCommand exec options
        ("-no-color" :: (options.extraArgs ++ (if key = "" then [] else [key])))).1 := by
  unfold TgOutputE
  dsimp only
  rcases hR : runTerragruntStackOutputCommand exec options
    ("-no-color" :: (options.extraArgs ++ (if key = "" then [] else [key]))) with ⟨tr, n, out, err⟩
  cases err <;> rfl

theorem TgOutputJsonE_trace (exec : Command → String × Option String) (options : Options)
    (key : String) :
    (TgOutputJsonE exec options key).1 =
      (runTerragruntStackOutputCommand exec options
        ("-no-color" :: "-json" :: (options.extraArgs ++ (if key = "" then [] else [key])))).1 := by
  unfold TgOutputJsonE
  dsimp only
  rcases hR : runTerragruntStackOutputCommand exec options
    ("-no-color" :: "-json" :: (options.extraArgs ++ (if key = "" then [] else [key]))) with
    ⟨tr, n, out, err⟩
  cases err with
  | some e => rfl
  | none =>
    show (match cleanTerragruntJson out with
      | some cleaned => (tr, Except.ok cleaned)
      | none => (tr, Except.error "invalid character in JSON input")).1 = tr
    split <;> rfl

theorem mem_stackCommandArgs (x : String) (p : Bool) (subCommand : String)
    (hx : x ∈ stackCommandArgs p subCommand) :
    x = "-experiment" ∨ x = "stack" ∨ x = subCommand := by
  unfold stackCommandArgs at hx
  rw [List.mem_append] at hx
  rcases hx with hx | hx
  · cases p with
    | true =>
      simp only [if_true] at hx
      rcases hx with _ | ⟨_, hx⟩
      · exact Or.inl rfl
      · rcases hx with _ | ⟨_, hx⟩
        · exact Or.inr (Or.inl rfl)
        · exact absurd (by assumption : x ∈ ([] : List String)) (List.not_mem_nil x)
    | false => simp at hx
  · rcases hx with _ | ⟨_, hx⟩
    · exact Or.inr (Or.inl rfl)
    · by_cases hs : subCommand = ""
      · rw [if_pos hs] at hx
        exact absurd hx (List.not_mem_nil x)
      · rw [if_neg hs] at hx
        rcases hx with _ | ⟨_, hx⟩
        · exact Or.inr (Or.inr rfl)
        · exact absurd hx (List.not_mem_nil x)

/-! ### Round-trip groundwork: whitespace and string escapes -/

theorem skipWsGo_cons_not (c : Char) (s : List Char) (h : jWs c = false) :
    skipWsGo (c :: s) = c :: s := by
  simp [skipWsGo, h]

theorem skipWsGo_ws_append (ws s : List Char) (h : ∀ c ∈ ws, jWs c = true) :
    skipWsGo (ws ++ s) = skipWsGo s := by
  induction ws with
  | nil => rfl
  | cons c cs ih =>
    have hc : jWs c = true := h c (List.mem_cons_self _ _)
    simp only [List.cons_append, skipWsGo, hc, if_true]
    exact ih fun x hx => h x (List.mem_cons_of_mem _ hx)

theorem padSp_all_ws (n : Nat) : ∀ c ∈ padSp n, jWs c = true := by
  induction n with
  | zero => intro c hc; exact absurd hc (List.not_mem_nil c)
  | succ k ih =>
    intro c hc
    rcases hc with _ | ⟨_, hc⟩
    · rfl
    · exact ih c (by assumption)

theorem skipWsGo_pad (n : Nat) (s : List Char) :
    skipWsGo (padSp n ++ s) = skipWsGo s :=
  skipWsGo_ws_append (padSp n) s (padSp_all_ws n)

theorem hexVal_hexDig (k : Nat) (h : k < 16) : hexVal (hexDig k) = some k := by
  have h16 : ∀ m, m < 16 → hexVal (hexDig m) = some m := by decide
  exact h16 k h

theorem parseStrBody_esc (c : Char) (rest : List Char) :
    parseStrBody (escCh c ++ rest) =
      match parseStrBody rest with
      | some (s, r) => some (c :: s, r)
      | none => none := by
  by_cases h1 : c = '"'
  · subst h1; rfl
  · by_cases h2 : c = '\\'
    · subst h2; rfl
    · by_cases h3 : c = '\n'
      · subst h3; rfl
      · by_cases h4 : c = '\t'
        · subst h4; rfl
        · by_cases h5 : c = '\r'
          · subst h5; rfl
          · by_cases h6 : c.toNat < 32
            · have hesc : escCh c =
                  ['\\', 'u', '0', '0', hexDig (c.toNat / 16), hexDig (c.toNat % 16)] := by
                simp [escCh, h1, h2, h3, h4, h5, h6]
              have hq : (c.toNat / 16) < 16 := by omega
              have hr : (c.toNat % 16) < 16 := Nat.mod_lt _ (by omega)
              rw [hesc]
              show (match hexVal '0', hexVal '0', hexVal (hexDig (c.toNat / 16)),
                  hexVal (hexDig (c.toNat % 16)) with
                | some va, some vb, some vc, some vd =>
                  match parseStrBody rest with
                  | some (s, r) =>
                    some (uChar (((va * 16 + vb) * 16 + vc) * 16 + vd) :: s, r)
                  | none => none
                | _, _, _, _ => none) = _
              rw [show hexVal '0' = some 0 from rfl,
                hexVal_hexDig _ hq, hexVal_hexDig _ hr]
              have harith : ((0 * 16 + 0) * 16 + c.toNat / 16) * 16 + c.toNat % 16 = c.toNat := by
                omega
              have hu : uChar c.toNat = c := by
                have hns : (0xd800 ≤ c.toNat && c.toNat ≤ 0xdfff) = false := by
                  have hlt : c.toNat < 0xd800 := by omega
                  simp [Nat.not_le_of_lt hlt]
                simp [uChar, hns, Char.ofNat_toNat]
              simp only [harith, hu]
            · have hesc : escCh c = [c] := by simp [escCh, h1, h2, h3, h4, h5, h6]
              rw [hesc, List.singleton_append, parseStrBody.eq_def]
              dsimp only
              rw [if_neg h1, if_neg h2, if_neg h6]

theorem parseStrBody_render (l : List Char) (rest : List Char) :
    parseStrBody ((l.map escCh).flatten ++ '"' :: rest) = some (l, rest) := by
  induction l with
  | nil =>
    rw [show (List.map escCh []).flatten ++ '"' :: rest = '"' :: rest by simp,
      parseStrBody.eq_def]
    simp
  | cons c cs ih =>
    rw [List.map_cons, List.flatten_cons, List.append_assoc, parseStrBody_esc, ih]

/-! ### Round-trip groundwork: number literals -/

theorem digitCh_ne {c : Char} (h : digitCh c = true) {x : Char}
    (hx : digitCh x = false) : c ≠ x := by
  intro he
  rw [he] at h
  simp [h] at hx

theorem digit_not_jWs {c : Char} (h : digitCh c = true) : jWs c = false := by
  have h1 : c ≠ ' ' := digitCh_ne h (by decide)
  have h2 : c ≠ '\t' := digitCh_ne h (by decide)
  have h3 : c ≠ '\n' := digitCh_ne h (by decide)
  have h4 : c ≠ '\r' := digitCh_ne h (by decide)
  simp [jWs, h1, h2, h3, h4]

theorem numStop_facts (s : List Char) (h : numStop s = true) :
    headNotDigit s = true ∧
      (∀ c r, s = c :: r → c ≠ '.' ∧ c ≠ 'e' ∧ c ≠ 'E') := by
  cases s with
  | nil => exact ⟨rfl, fun c r hcr => by cases hcr⟩
  | cons c cs =>
    simp only [numStop, Bool.not_eq_true', Bool.or_eq_false_iff] at h
    obtain ⟨⟨⟨hd, hdot⟩, he⟩, hE⟩ := h
    refine ⟨by simp [headNotDigit, hd], fun c' r' hcr => ?_⟩
    cases hcr
    exact ⟨by simpa using hdot, by simpa using he, by simpa using hE⟩

theorem takeDigits_stop (s : List Char) (h : headNotDigit s = true) :
    takeDigits s = ([], s) := by
  cases s with
  | nil => rfl
  | cons c cs =>
    simp only [headNotDigit, Bool.not_eq_true'] at h
    simp [takeDigits, h]

theorem takeDigits_run (ds rest : List Char) (hds : ∀ c ∈ ds, digitCh c = true)
    (hrest : headNotDigit rest = true) :
    takeDigits (ds ++ rest) = (ds, rest) := by
  induction ds with
  | nil => simpa using takeDigits_stop rest hrest
  | cons c cs ih =>
    have hc : digitCh c = true := hds c (List.mem_cons_self _ _)
    have ihr := ih fun x hx => hds x (List.mem_cons_of_mem _ hx)
    simp only [takeDigits, Prod.mk.injEq] at ihr ⊢
    simp [List.takeWhile, List.dropWhile, hc, ihr.1, ihr.2]

theorem isEmpty_false_of_ne_nil {α : Type} {l : List α} (h : l ≠ []) : l.isEmpty = false := by
  cases l with
  | nil => exact absurd rfl h
  | cons a b => rfl

theorem expOK_some (m : Char) (sg : Option Char) (ds : List Char)
    (h : expOK (some m) sg ds = true) :
    (m = 'e' ∨ m = 'E') ∧ (sg = none ∨ sg = some '+' ∨ sg = some '-') ∧
      ds ≠ [] ∧ (∀ c ∈ ds, digitCh c = true) := by
  cases sg with
  | none =>
    simp only [expOK, Bool.and_eq_true, Bool.or_eq_true, beq_iff_eq,
      Bool.not_eq_true', List.all_eq_true] at h
    obtain ⟨⟨⟨hm, _⟩, hne⟩, hall⟩ := h
    refine ⟨hm, Or.inl rfl, ?_, hall⟩
    intro hnil
    rw [hnil] at hne
    exact absurd hne (by decide)
  | some s =>
    simp only [expOK, Bool.and_eq_true, Bool.or_eq_true, beq_iff_eq,
      Bool.not_eq_true', List.all_eq_true] at h
    obtain ⟨⟨⟨hm, hsg⟩, hne⟩, hall⟩ := h
    refine ⟨hm, ?_, ?_, hall⟩
    · rcases hsg with hs | hs
      · exact Or.inr (Or.inl (by rw [hs]))
      · exact Or.inr (Or.inr (by rw [hs]))
    · intro hnil
      rw [hnil] at hne
      exact absurd hne (by decide)

theorem parseExpTail_rt (neg : Bool) (ip fp : List Char) (m : Char) (sg : Option Char)
    (eDs rest : List Char) (hne : eDs ≠ []) (hds : ∀ c ∈ eDs, digitCh c = true)
    (hsg : sg = none ∨ sg = some '+' ∨ sg = some '-')
    (hrest : headNotDigit rest = true) :
    parseExpTail neg ip fp m (sgRender sg ++ (eDs ++ rest)) =
      some (⟨neg, ip, fp, some m, sg, eDs⟩, rest) := by
  have hrun := takeDigits_run eDs rest hds hrest
  have hnem : eDs.isEmpty = false := isEmpty_false_of_ne_nil hne
  rcases hsg with hs | hs | hs <;> subst hs
  · cases eDs with
    | nil => exact absurd rfl hne
    | cons d ds =>
      have hd : digitCh d = true := hds d (List.mem_cons_self _ _)
      have hp : d ≠ '+' := digitCh_ne hd (by decide)
      have hm' : d ≠ '-' := digitCh_ne hd (by decide)
      simp only [sgRender, List.nil_append, List.cons_append, parseExpTail,
        if_neg hp, if_neg hm']
      rw [List.cons_append] at hrun
      rw [hrun]
      simp [hnem]
  · simp only [sgRender, List.singleton_append, parseExpTail]
    simp only [show ('+' : Char) = '+' ↔ True from by simp, if_true]
    rw [hrun]
    simp [hnem]
  · simp only [sgRender, List.singleton_append, parseExpTail]
    have hne' : ('-' : Char) ≠ '+' := by decide
    simp only [if_neg hne']
    simp only [show ('-' : Char) = '-' ↔ True from by simp, if_true]
    rw [hrun]
    simp [hnem]

theorem expOK_none (sg : Option Char) (ds : List Char) (h : expOK none sg ds = true) :
    sg = none ∧ ds = [] := by
  simp only [expOK, Bool.and_eq_true, Option.isNone_iff_eq_none, List.isEmpty_iff] at h
  exact h

theorem parseExpPart_rt (neg : Bool) (ip fp : List Char) (m : Option Char)
    (sg : Option Char) (eDs rest : List Char) (hexp : expOK m sg eDs = true)
    (hrest : numStop rest = true) :
    parseExpPart neg ip fp (expRender m sg eDs ++ rest) =
      some (⟨neg, ip, fp, m, sg, eDs⟩, rest) := by
  cases m with
  | none =>
    obtain ⟨hsg, hds⟩ := expOK_none sg eDs hexp
    subst hsg; subst hds
    rw [show expRender none none [] = [] from rfl, List.nil_append]
    cases rest with
    | nil => rfl
    | cons c r =>
      obtain ⟨_, hlits⟩ := numStop_facts (c :: r) hrest
      obtain ⟨_, he, hE⟩ := hlits c r rfl
      simp [parseExpPart, he, hE]
  | some mc =>
    obtain ⟨hm, hsg, hne, hds⟩ := expOK_some mc sg eDs hexp
    have hstep := parseExpTail_rt neg ip fp mc sg eDs rest hne hds hsg
      (numStop_facts rest hrest).1
    have harg : expRender (some mc) sg eDs ++ rest =
        mc :: (sgRender sg ++ (eDs ++ rest)) := by
      simp [expRender, List.append_assoc]
    rw [harg]
    rcases hm with hm | hm <;> subst hm
    · simpa [parseExpPart] using hstep
    · have : ('E' : Char) ≠ 'e' := by decide
      simpa [parseExpPart, this] using hstep

theorem expRender_head_not_digit (m : Option Char) (sg : Option Char) (ds : List Char)
    (hexp : expOK m sg ds = true) (rest : List Char) (hrest : numStop rest = true) :
    headNotDigit (expRender m sg ds ++ rest) = true ∧
      (∀ c r, expRender m sg ds ++ rest = c :: r → c ≠ '.') := by
  cases m with
  | none =>
    obtain ⟨hsg, hds⟩ := expOK_none sg ds hexp
    subst hsg; subst hds
    rw [show expRender none none [] = [] from rfl, List.nil_append]
    exact ⟨(numStop_facts rest hrest).1,
      fun c r hcr => ((numStop_facts rest hrest).2 c r hcr).1⟩
  | some mc =>
    obtain ⟨hm, _, _, _⟩ := expOK_some mc sg ds hexp
    have harg : expRender (some mc) sg ds ++ rest =
        mc :: (sgRender sg ++ ds ++ rest) := by
      simp [expRender, List.append_assoc]
    rw [harg]
    rcases hm with hm | hm <;> subst hm
    · exact ⟨rfl, fun c r hcr => by cases hcr; decide⟩
    · exact ⟨rfl, fun c r hcr => by cases hcr; decide⟩

theorem parseFracPart_rt (neg : Bool) (ip fp : List Char) (m : Option Char)
    (sg : Option Char) (eDs rest : List Char) (hfp : ∀ c ∈ fp, digitCh c = true)
    (hexp : expOK m sg eDs = true) (hrest : numStop rest = true) :
    parseFracPart neg ip (fracRender fp ++ expRender m sg eDs ++ rest) =
      some (⟨neg, ip, fp, m, sg, eDs⟩, rest) := by
  have hpe := parseExpPart_rt neg ip fp m sg eDs rest hexp hrest
  obtain ⟨hhead, hdot⟩ := expRender_head_not_digit m sg eDs hexp rest hrest
  cases fp with
  | nil =>
    rw [show fracRender [] = [] from rfl, List.nil_append]
    cases hES : expRender m sg eDs ++ rest with
    | nil => rw [parseFracPart]; rw [hES] at hpe; exact hpe
    | cons c r =>
      have hc : c ≠ '.' := hdot c r hES
      rw [parseFracPart, if_neg hc]
      rw [hES] at hpe
      exact hpe
  | cons d ds =>
    have harg : fracRender (d :: ds) ++ expRender m sg eDs ++ rest =
        '.' :: ((d :: ds) ++ (expRender m sg eDs ++ rest)) := by
      simp [fracRender, List.append_assoc]
    rw [harg, parseFracPart, if_pos rfl]
    rw [takeDigits_run (d :: ds) (expRender m sg eDs ++ rest) hfp hhead]
    simp only [List.isEmpty_cons, Bool.false_eq_true, if_false]
    exact hpe

theorem ipOK_facts (ip : List Char) (h : ipOK ip = true) :
    ip ≠ [] ∧ ∀ c ∈ ip, digitCh c = true := by
  cases ip with
  | nil => exact absurd h (by decide)
  | cons c cs =>
    refine ⟨by simp, ?_⟩
    by_cases hc0 : c = '0'
    · subst hc0
      rw [ipOK, if_pos rfl, List.isEmpty_iff] at h
      subst h
      intro x hx
      rcases hx with _ | ⟨_, hx⟩
      · decide
      · exact absurd (by assumption : x ∈ ([] : List Char)) (List.not_mem_nil x)
    · rw [ipOK, if_neg hc0, Bool.and_eq_true, List.all_eq_true] at h
      intro x hx
      rcases hx with _ | ⟨_, hx⟩
      · exact h.1
      · exact h.2 x (by assumption)

theorem parseNumLit_rt (n : NumLit) (rest : List Char) (hok : numOK n = true)
    (hrest : numStop rest = true) :
    parseNumLit (renderNum n ++ rest) = some (n, rest) := by
  obtain ⟨nneg, nip, nfp, nm, nsg, nds⟩ := n
  simp only [numOK, Bool.and_eq_true, List.all_eq_true] at hok
  obtain ⟨⟨hip, hfp⟩, hexp⟩ := hok
  obtain ⟨hipne, hipd⟩ := ipOK_facts nip hip
  have hiphead : headNotDigit (fracRender nfp ++ expRender nm nsg nds ++ rest) = true := by
    rcases nfp with _ | ⟨d, ds⟩
    · rw [show fracRender [] = [] from rfl, List.nil_append]
      exact (expRender_head_not_digit nm nsg nds hexp rest hrest).1
    · rfl
  have hrun := takeDigits_run nip (fracRender nfp ++ expRender nm nsg nds ++ rest)
    hipd hiphead
  cases nneg with
  | true =>
    have hfrac := parseFracPart_rt true nip nfp nm nsg nds rest hfp hexp hrest
    have harg : renderNum ⟨true, nip, nfp, nm, nsg, nds⟩ ++ rest =
        '-' :: (nip ++ (fracRender nfp ++ expRender nm nsg nds ++ rest)) := by
      simp [renderNum, negRender, List.append_assoc]
    rw [harg, parseNumLit]
    simp only [show ('-' : Char) = '-' ↔ True from by simp, if_true]
    rw [← List.append_assoc] at hrun
    rw [show takeDigits ((true, nip ++ (fracRender nfp ++ expRender nm nsg nds ++ rest)).2) =
        (nip, fracRender nfp ++ expRender nm nsg nds ++ rest) from by
      rw [← List.append_assoc]
      exact hrun]
    simp only [hip, if_true]
    exact hfrac
  | false =>
    have hfrac := parseFracPart_rt false nip nfp nm nsg nds rest hfp hexp hrest
    rcases hnip : nip with _ | ⟨d, ds⟩
    · exact absurd hnip hipne
    · rw [hnip] at hrun hfrac hipd hip
      have hd : digitCh d = true := hipd d (List.mem_cons_self _ _)
      have hdm : d ≠ '-' := digitCh_ne hd (by decide)
      have harg : renderNum ⟨false, d :: ds, nfp, nm, nsg, nds⟩ ++ rest =
          d :: (ds ++ (fracRender nfp ++ expRender nm nsg nds ++ rest)) := by
        simp [renderNum, negRender, List.append_assoc]
      rw [harg, parseNumLit]
      simp only [if_neg hdm]
      rw [show takeDigits ((false,
          d :: (ds ++ (fracRender nfp ++ expRender nm nsg nds ++ rest))).2) =
          (d :: ds, fracRender nfp ++ expRender nm nsg nds ++ rest) from by
        rw [← List.cons_append]
        exact hrun]
      simp only [hip, if_true]
      exact hfrac

theorem jvalFuel_pos (j : Jval) : 1 ≤ jvalFuel j := by
  cases j with
  | arr es => cases es <;> simp [jvalFuel]
  | obj ms =>
    cases ms with
    | nil => simp [jvalFuel]
    | cons m ms => obtain ⟨k, v⟩ := m; simp [jvalFuel]
  | null => simp [jvalFuel]
  | bool b => simp [jvalFuel]
  | num n => simp [jvalFuel]
  | str s => simp [jvalFuel]

theorem modeFuel_pos (x : Jval ⊕ (List Jval ⊕ List (List Char × Jval))) :
    1 ≤ modeFuel x := by
  cases x with
  | inl j => exact jvalFuel_pos j
  | inr y =>
    cases y with
    | inl l =>
      cases l with
      | nil => exact le_refl 1
      | cons e es => have := jvalFuel_pos e; simp only [modeFuel]; omega
    | inr l =>
      cases l with
      | nil => exact le_refl 1
      | cons m ms =>
        obtain ⟨k, v⟩ := m
        have := jvalFuel_pos v
        simp only [modeFuel]
        omega

theorem renderCore_total :
    ∀ (f : Nat) (x : Jval ⊕ (List Jval ⊕ List (List Char × Jval))) (ind : Nat),
      modeFuel x ≤ f → (renderCore f ind x).isSome = true := by
  intro f
  induction f with
  | zero =>
    intro x ind h
    exact absurd (le_trans (modeFuel_pos x) h) (by omega)
  | succ f ih =>
    intro x ind h
    cases x with
    | inl j =>
      cases j with
      | null => rfl
      | bool b => cases b <;> rfl
      | num n => rfl
      | str s => rfl
      | arr es =>
        cases es with
        | nil => rfl
        | cons e es =>
          have hb : modeFuel (.inr (.inl (e :: es))) ≤ f := by
            simp only [modeFuel, jvalFuel] at h ⊢
            omega
          obtain ⟨items, hitems⟩ :=
            Option.isSome_iff_exists.mp (ih (.inr (.inl (e :: es))) (ind + 2) hb)
          simp [renderCore, hitems]
      | obj ms =>
        cases ms with
        | nil => rfl
        | cons m ms =>
          obtain ⟨k, v⟩ := m
          have hb : modeFuel (.inr (.inr ((k, v) :: ms))) ≤ f := by
            simp only [modeFuel, jvalFuel] at h ⊢
            omega
          obtain ⟨items, hitems⟩ :=
            Option.isSome_iff_exists.mp (ih (.inr (.inr ((k, v) :: ms))) (ind + 2) hb)
          simp [renderCore, hitems]
    | inr y =>
      cases y with
      | inl l =>
        cases l with
        | nil => rfl
        | cons e es =>
          cases es with
          | nil =>
            have hb : modeFuel (.inl e) ≤ f := by
              simp only [modeFuel, jvalFuel] at h ⊢
              omega
            obtain ⟨v, hv⟩ := Option.isSome_iff_exists.mp (ih (.inl e) ind hb)
            simp [renderCore, hv]
          | cons e' es' =>
            have hb1 : modeFuel (.inl e) ≤ f := by
              have := jvalFuel_pos (.arr (e' :: es'))
              simp only [modeFuel] at h ⊢
              omega
            have hb2 : modeFuel (.inr (.inl (e' :: es'))) ≤ f := by
              have := jvalFuel_pos e
              simp only [modeFuel, jvalFuel] at h ⊢
              omega
            obtain ⟨v, hv⟩ := Option.isSome_iff_exists.mp (ih (.inl e) ind hb1)
            obtain ⟨tl, htl⟩ :=
              Option.isSome_iff_exists.mp (ih (.inr (.inl (e' :: es'))) ind hb2)
            simp [renderCore, hv, htl]
      | inr l =>
        cases l with
        | nil => rfl
        | cons m ms =>
          obtain ⟨k, v⟩ := m
          cases ms with
          | nil =>
            have hb : modeFuel (.inl v) ≤ f := by
              simp only [modeFuel, jvalFuel] at h ⊢
              omega
            obtain ⟨rv, hrv⟩ := Option.isSome_iff_exists.mp (ih (.inl v) ind hb)
            simp [renderCore, hrv]
          | cons m' ms' =>
            obtain ⟨k', v'⟩ := m'
            have hb1 : modeFuel (.inl v) ≤ f := by
              have := jvalFuel_pos (.obj ((k', v') :: ms'))
              simp only [modeFuel] at h ⊢
              omega
            have hb2 : modeFuel (.inr (.inr ((k', v') :: ms'))) ≤ f := by
              have := jvalFuel_pos v
              simp only [modeFuel, jvalFuel] at h ⊢
              omega
            obtain ⟨rv, hrv⟩ := Option.isSome_iff_exists.mp (ih (.inl v) ind hb1)
            obtain ⟨tl, htl⟩ :=
              Option.isSome_iff_exists.mp (ih (.inr (.inr ((k', v') :: ms'))) ind hb2)
            simp [renderCore, hrv, htl]

theorem renderCore_head (f ind : Nat) (j : Jval) (out : List Char) (hwf : JWF j)
    (h : renderCore f ind (.inl j) = some out) :
    ∃ c t, out = c :: t ∧ jWs c = false ∧ c ≠ ']' ∧ c ≠ '}' := by
  cases f with
  | zero => exact absurd h (by simp [renderCore])
  | succ f =>
    cases j with
    | null =>
      rw [show renderCore (f + 1) ind (.inl .null) = some "null".data from rfl] at h
      exact ⟨'n', _, (Option.some.inj h).symm, by decide, by decide, by decide⟩
    | bool b =>
      cases b with
      | true =>
        rw [show renderCore (f + 1) ind (.inl (.bool true)) = some "true".data from rfl] at h
        exact ⟨'t', _, (Option.some.inj h).symm, by decide, by decide, by decide⟩
      | false =>
        rw [show renderCore (f + 1) ind (.inl (.bool false)) = some "false".data from rfl] at h
        exact ⟨'f', _, (Option.some.inj h).symm, by decide, by decide, by decide⟩
    | str s =>
      rw [show renderCore (f + 1) ind (.inl (.str s)) = some (renderStr s) from rfl] at h
      exact ⟨'"', _, (Option.some.inj h).symm, by decide, by decide, by decide⟩
    | num n =>
      rw [show renderCore (f + 1) ind (.inl (.num n)) = some (renderNum n) from rfl] at h
      have hout : out = renderNum n := (Option.some.inj h).symm
      have hok : numOK n = true := by cases hwf with | num _ hn => exact hn
      obtain ⟨nneg, nip, nfp, nm, nsg, nds⟩ := n
      simp only [numOK, Bool.and_eq_true] at hok
      obtain ⟨⟨hip, _⟩, _⟩ := hok
      obtain ⟨hipne, hipd⟩ := ipOK_facts nip hip
      cases nneg with
      | true =>
        refine ⟨'-', nip ++ (fracRender nfp ++ expRender nm nsg nds), ?_,
          by decide, by decide, by decide⟩
        rw [hout]
        simp [renderNum, negRender, List.append_assoc]
      | false =>
        cases hnip : nip with
        | nil => exact absurd hnip hipne
        | cons d ds =>
          have hd : digitCh d = true := hipd d (hnip ▸ List.mem_cons_self _ _)
          refine ⟨d, ds ++ (fracRender nfp ++ expRender nm nsg nds), ?_,
            digit_not_jWs hd, digitCh_ne hd (by decide), digitCh_ne hd (by decide)⟩
          rw [hout]
          simp [renderNum, negRender, hnip, List.append_assoc]
    | arr es =>
      cases es with
      | nil =>
        rw [show renderCore (f + 1) ind (.inl (.arr [])) = some ['[', ']'] from rfl] at h
        exact ⟨'[', _, (Option.some.inj h).symm, by decide, by decide, by decide⟩
      | cons e es =>
        cases hit : renderCore f (ind + 2) (.inr (.inl (e :: es))) with
        | none => rw [renderCore, hit] at h; exact absurd h (by simp)
        | some its =>
          rw [renderCore, hit] at h
          exact ⟨'[', _, (Option.some.inj h).symm, by decide, by decide, by decide⟩
    | obj ms =>
      cases ms with
      | nil =>
        rw [show renderCore (f + 1) ind (.inl (.obj [])) = some ['{', '}'] from rfl] at h
        exact ⟨'{', _, (Option.some.inj h).symm, by decide, by decide, by decide⟩
      | cons m ms =>
        obtain ⟨k, v⟩ := m
        cases hit : renderCore f (ind + 2) (.inr (.inr ((k, v) :: ms))) with
        | none => rw [renderCore, hit] at h; exact absurd h (by simp)
        | some its =>
          rw [renderCore, hit] at h
          exact ⟨'{', _, (Option.some.inj h).symm, by decide, by decide, by decide⟩

theorem renderItems_single (f ind : Nat) (e : Jval) (out : List Char)
    (h : renderCore (f + 1) ind (.inr (.inl [e])) = some out) :
    ∃ v, renderCore f ind (.inl e) = some v ∧ out = padSp ind ++ v := by
  cases hv : renderCore f ind (.inl e) with
  | none => rw [renderCore, hv] at h; exact absurd h (by simp)
  | some v =>
    rw [renderCore, hv] at h
    exact ⟨v, rfl, (Option.some.inj h).symm⟩

theorem renderItems_cons (f ind : Nat) (e e' : Jval) (es : List Jval) (out : List Char)
    (h : renderCore (f + 1) ind (.inr (.inl (e :: e' :: es))) = some out) :
    ∃ v tl, renderCore f ind (.inl e) = some v ∧
      renderCore f ind (.inr (.inl (e' :: es))) = some tl ∧
      out = (padSp ind ++ v) ++ ',' :: '\n' :: tl := by
  cases hv : renderCore f ind (.inl e) with
  | none => rw [renderCore, hv] at h; exact absurd h (by simp)
  | some v =>
    cases htl : renderCore f ind (.inr (.inl (e' :: es))) with
    | none => rw [renderCore, hv, htl] at h; exact absurd h (by simp)
    | some tl =>
      rw [renderCore, hv, htl] at h
      exact ⟨v, tl, rfl, rfl, (Option.some.inj h).symm⟩

theorem renderMembers_single (f ind : Nat) (k : List Char) (v : Jval) (out : List Char)
    (h : renderCore (f + 1) ind (.inr (.inr [(k, v)])) = some out) :
    ∃ rv, renderCore f ind (.inl v) = some rv ∧
      out = padSp ind ++ (renderStr k ++ ':' :: ' ' :: rv) := by
  cases hv : renderCore f ind (.inl v) with
  | none => rw [renderCore, hv] at h; exact absurd h (by simp)
  | some rv =>
    rw [renderCore, hv] at h
    exact ⟨rv, rfl, (Option.some.inj h).symm⟩

theorem renderMembers_cons (f ind : Nat) (k : List Char) (v : Jval)
    (m' : List Char × Jval) (ms : List (List Char × Jval)) (out : List Char)
    (h : renderCore (f + 1) ind (.inr (.inr ((k, v) :: m' :: ms))) = some out) :
    ∃ rv tl, renderCore f ind (.inl v) = some rv ∧
      renderCore f ind (.inr (.inr (m' :: ms))) = some tl ∧
      out = (padSp ind ++ (renderStr k ++ ':' :: ' ' :: rv)) ++ ',' :: '\n' :: tl := by
  obtain ⟨k', v'⟩ := m'
  cases hv : renderCore f ind (.inl v) with
  | none => rw [renderCore, hv] at h; exact absurd h (by simp)
  | some rv =>
    cases htl : renderCore f ind (.inr (.inr ((k', v') :: ms))) with
    | none => rw [renderCore, hv, htl] at h; exact absurd h (by simp)
    | some tl =>
      rw [renderCore, hv, htl] at h
      exact ⟨rv, tl, rfl, rfl, (Option.some.inj h).symm⟩

theorem renderItems_skipWs (f ind : Nat) (e : Jval) (es : List Jval) (out : List Char)
    (hwf : JWF e) (h : renderCore f ind (.inr (.inl (e :: es))) = some out)
    (X : List Char) :
    ∃ c t, skipWsGo (out ++ X) = c :: t ∧ jWs c = false ∧ c ≠ ']' ∧ c ≠ '}' := by
  cases f with
  | zero => exact absurd h (by simp [renderCore])
  | succ f =>
    cases es with
    | nil =>
      obtain ⟨v, hv, hout⟩ := renderItems_single f ind e out h
      obtain ⟨c, t, hvct, hws, hbr, hbc⟩ := renderCore_head f ind e v hwf hv
      refine ⟨c, t ++ X, ?_, hws, hbr, hbc⟩
      rw [hout, hvct, List.append_assoc, skipWsGo_pad, List.cons_append,
        skipWsGo_cons_not c _ hws]
    | cons e' es' =>
      obtain ⟨v, tl, hv, htl, hout⟩ := renderItems_cons f ind e e' es' out h
      obtain ⟨c, t, hvct, hws, hbr, hbc⟩ := renderCore_head f ind e v hwf hv
      refine ⟨c, t ++ (',' :: '\n' :: tl ++ X), ?_, hws, hbr, hbc⟩
      rw [hout, hvct]
      rw [show (padSp ind ++ c :: t) ++ ',' :: '\n' :: tl ++ X =
          padSp ind ++ (c :: (t ++ (',' :: '\n' :: tl ++ X))) from by
        simp [List.append_assoc]]
      rw [skipWsGo_pad, skipWsGo_cons_not c _ hws]

theorem renderMembers_skipWs (f ind : Nat) (k : List Char) (v : Jval)
    (ms : List (List Char × Jval)) (out : List Char)
    (h : renderCore f ind (.inr (.inr ((k, v) :: ms))) = some out) (X : List Char) :
    ∃ t, skipWsGo (out ++ X) = '"' :: t := by
  cases f with
  | zero => exact absurd h (by simp [renderCore])
  | succ f =>
    cases ms with
    | nil =>
      obtain ⟨rv, _, hout⟩ := renderMembers_single f ind k v out h
      refine ⟨(k.map escCh).flatten ++ '"' :: (':' :: ' ' :: rv ++ X), ?_⟩
      rw [hout]
      rw [show (padSp ind ++ (renderStr k ++ ':' :: ' ' :: rv)) ++ X =
          padSp ind ++ ('"' :: ((k.map escCh).flatten ++ '"' :: (':' :: ' ' :: rv ++ X)))
          from by simp [renderStr, List.append_assoc]]
      rw [skipWsGo_pad, skipWsGo_cons_not '"' _ (by decide)]
    | cons m' ms' =>
      obtain ⟨rv, tl, _, _, hout⟩ := renderMembers_cons f ind k v m' ms' out h
      refine ⟨(k.map escCh).flatten ++
        '"' :: (':' :: ' ' :: rv ++ (',' :: '\n' :: tl ++ X)), ?_⟩
      rw [hout]
      rw [show ((padSp ind ++ (renderStr k ++ ':' :: ' ' :: rv)) ++ ',' :: '\n' :: tl) ++ X =
          padSp ind ++ ('"' :: ((k.map escCh).flatten ++
            '"' :: (':' :: ' ' :: rv ++ (',' :: '\n' :: tl ++ X))))
          from by simp [renderStr, List.append_assoc]]
      rw [skipWsGo_pad, skipWsGo_cons_not '"' _ (by decide)]

theorem all_ws_append (a b : List Char) (ha : ∀ c ∈ a, jWs c = true)
    (hb : ∀ c ∈ b, jWs c = true) : ∀ c ∈ a ++ b, jWs c = true := by
  intro c hc
  rcases List.mem_append.mp hc with h | h
  · exact ha c h
  · exact hb c h

theorem skipWs_to_close (br : Char) (ws2 rest : List Char) (hbr : jWs br = false)
    (hw : ∀ c ∈ ws2, jWs c = true) :
    skipWsGo ('\n' :: (ws2 ++ (br :: rest))) = br :: rest := by
  rw [show '\n' :: (ws2 ++ (br :: rest)) = ('\n' :: ws2) ++ (br :: rest) from rfl]
  rw [skipWsGo_ws_append ('\n' :: ws2) _ (all_ws_append ['\n'] ws2 (by decide) hw)]
  exact skipWsGo_cons_not br rest hbr

theorem rt_items : ∀ (es : List Jval), es ≠ [] →
    (∀ e ∈ es, JWF e) → (∀ e ∈ es, RtVal e) →
    ∀ (rf ind : Nat) (out : List Char), renderCore rf ind (.inr (.inl es)) = some out →
    ∀ (f : Nat) (ws1 ws2 rest : List Char),
      (∀ c ∈ ws1, jWs c = true) → (∀ c ∈ ws2, jWs c = true) →
      2 * out.length + 3 ≤ f → numStop rest = true →
      parseCore f 1 (ws1 ++ (out ++ ('\n' :: (ws2 ++ (']' :: rest))))) =
        some (.vs es, rest) := by
  intro es
  induction es with
  | nil => intro hne; exact absurd rfl hne
  | cons e es ih =>
    intro _ hwf hrt rf ind out hr f ws1 ws2 rest hws1 hws2 hfuel hrest
    cases rf with
    | zero => exact absurd hr (by simp [renderCore])
    | succ rf =>
      cases es with
      | nil =>
        obtain ⟨v, hv, hout⟩ := renderItems_single rf ind e out hr
        have hlen : out.length = (padSp ind).length + v.length := by
          rw [hout, List.length_append]
        cases f with
        | zero => omega
        | succ g =>
          have hval := hrt e (List.mem_cons_self _ _) rf ind v hv g
            (ws1 ++ padSp ind) ('\n' :: (ws2 ++ (']' :: rest)))
            (all_ws_append ws1 (padSp ind) hws1 (padSp_all_ws ind))
            (by omega) rfl
          have hS : ws1 ++ (out ++ ('\n' :: (ws2 ++ (']' :: rest)))) =
              (ws1 ++ padSp ind) ++ (v ++ ('\n' :: (ws2 ++ (']' :: rest)))) := by
            rw [hout]
            simp [List.append_assoc]
          simp only [parseCore]
          rw [hS, hval]
          dsimp only
          rw [skipWs_to_close ']' ws2 rest (by decide) hws2]
          dsimp only
          rw [if_neg (by decide : (']' : Char) ≠ ','), if_pos rfl]
      | cons e' es' =>
        obtain ⟨v, tl, hv, htl, hout⟩ := renderItems_cons rf ind e e' es' out hr
        have hlen : out.length = (padSp ind).length + v.length + (2 + tl.length) := by
          rw [hout]
          simp [List.length_append]
          omega
        cases f with
        | zero => omega
        | succ g =>
          have hval := hrt e (List.mem_cons_self _ _) rf ind v hv g
            (ws1 ++ padSp ind)
            (',' :: ('\n' :: (tl ++ ('\n' :: (ws2 ++ (']' :: rest))))))
            (all_ws_append ws1 (padSp ind) hws1 (padSp_all_ws ind))
            (by omega) rfl
          have hS : ws1 ++ (out ++ ('\n' :: (ws2 ++ (']' :: rest)))) =
              (ws1 ++ padSp ind) ++
                (v ++ (',' :: ('\n' :: (tl ++ ('\n' :: (ws2 ++ (']' :: rest))))))) := by
            rw [hout]
            simp [List.append_assoc]
          have htail := ih (by simp) (fun x hx => hwf x (List.mem_cons_of_mem _ hx))
            (fun x hx => hrt x (List.mem_cons_of_mem _ hx)) rf ind tl htl g
            ['\n'] ws2 rest (by decide) hws2 (by omega) hrest
          simp only [parseCore]
          rw [hS, hval]
          dsimp only
          rw [skipWsGo_cons_not ',' _ (by decide)]
          dsimp only
          rw [if_pos rfl, show ('\n' :: (tl ++ '\n' :: (ws2 ++ ']' :: rest))) =
              ['\n'] ++ (tl ++ '\n' :: (ws2 ++ ']' :: rest)) from rfl, htail]

theorem renderStr_shape (k : List Char) (tail : List Char) :
    renderStr k ++ tail = '"' :: ((k.map escCh).flatten ++ '"' :: tail) := by
  simp [renderStr, List.append_assoc]

theorem rt_members : ∀ (ms : List (List Char × Jval)), ms ≠ [] →
    (∀ kv ∈ ms, JWF kv.2) → (∀ kv ∈ ms, RtVal kv.2) →
    ∀ (rf ind : Nat) (out : List Char), renderCore rf ind (.inr (.inr ms)) = some out →
    ∀ (f : Nat) (ws1 ws2 rest : List Char),
      (∀ c ∈ ws1, jWs c = true) → (∀ c ∈ ws2, jWs c = true) →
      2 * out.length + 3 ≤ f → numStop rest = true →
      parseCore f 2 (ws1 ++ (out ++ ('\n' :: (ws2 ++ ('}' :: rest))))) =
        some (.ms ms, rest) := by
  intro ms
  induction ms with
  | nil => intro hne; exact absurd rfl hne
  | cons m ms ih =>
    obtain ⟨k, v⟩ := m
    intro _ hwf hrt rf ind out hr f ws1 ws2 rest hws1 hws2 hfuel hrest
    cases rf with
    | zero => exact absurd hr (by simp [renderCore])
    | succ rf =>
      cases ms with
      | nil =>
        obtain ⟨rv, hrv, hout⟩ := renderMembers_single rf ind k v out hr
        have hlen : out.length =
            (padSp ind).length + ((k.map escCh).flatten.length + 2) + (2 + rv.length) := by
          rw [hout]
          simp [renderStr, List.length_append]
          omega
        cases f with
        | zero => omega
        | succ g =>
          have hval := hrt (k, v) (List.mem_cons_self _ _) rf ind rv hrv g
            [' '] ('\n' :: (ws2 ++ ('}' :: rest))) (by decide) (by omega) rfl
          have hS : ws1 ++ (out ++ ('\n' :: (ws2 ++ ('}' :: rest)))) =
              (ws1 ++ padSp ind) ++
                ('"' :: ((k.map escCh).flatten ++
                  '"' :: (':' :: (' ' :: (rv ++ ('\n' :: (ws2 ++ ('}' :: rest)))))))) := by
            rw [hout]
            simp [renderStr, List.append_assoc]
          have hskip : skipWsGo (ws1 ++ (out ++ ('\n' :: (ws2 ++ ('}' :: rest))))) =
              '"' :: ((k.map escCh).flatten ++
                '"' :: (':' :: (' ' :: (rv ++ ('\n' :: (ws2 ++ ('}' :: rest))))))) := by
            rw [hS, skipWsGo_ws_append _ _
              (all_ws_append ws1 (padSp ind) hws1 (padSp_all_ws ind))]
            exact skipWsGo_cons_not '"' _ (by decide)
          simp only [parseCore]
          rw [hskip]
          dsimp only
          rw [if_pos rfl, parseStrBody_render]
          dsimp only
          rw [skipWsGo_cons_not ':' _ (by decide)]
          dsimp only
          rw [if_pos rfl]
          rw [show (' ' :: (rv ++ ('\n' :: (ws2 ++ ('}' :: rest))))) =
              [' '] ++ (rv ++ ('\n' :: (ws2 ++ ('}' :: rest)))) from rfl, hval]
          dsimp only
          rw [skipWs_to_close '}' ws2 rest (by decide) hws2]
          dsimp only
          rw [if_neg (by decide : ('}' : Char) ≠ ','), if_pos rfl]
      | cons m' ms' =>
        obtain ⟨rv, tl, hrv, htl, hout⟩ := renderMembers_cons rf ind k v m' ms' out hr
        have hlen : out.length =
            ((padSp ind).length + ((k.map escCh).flatten.length + 2) + (2 + rv.length)) +
              (2 + tl.length) := by
          rw [hout]
          simp [renderStr, List.length_append]
          omega
        cases f with
        | zero => omega
        | succ g =>
          have hval := hrt (k, v) (List.mem_cons_self _ _) rf ind rv hrv g
            [' '] (',' :: ('\n' :: (tl ++ ('\n' :: (ws2 ++ ('}' :: rest))))))
            (by decide) (by omega) rfl
          have hS : ws1 ++ (out ++ ('\n' :: (ws2 ++ ('}' :: rest)))) =
              (ws1 ++ padSp ind) ++
                ('"' :: ((k.map escCh).flatten ++
                  '"' :: (':' :: (' ' :: (rv ++
                    (',' :: ('\n' :: (tl ++ ('\n' :: (ws2 ++ ('}' :: rest))))))))))) := by
            rw [hout]
            simp [renderStr, List.append_assoc]
          have hskip : skipWsGo (ws1 ++ (out ++ ('\n' :: (ws2 ++ ('}' :: rest))))) =
              '"' :: ((k.map escCh).flatten ++
                '"' :: (':' :: (' ' :: (rv ++
                  (',' :: ('\n' :: (tl ++ ('\n' :: (ws2 ++ ('}' :: rest)))))))))) := by
            rw [hS, skipWsGo_ws_append _ _
              (all_ws_append ws1 (padSp ind) hws1 (padSp_all_ws ind))]
            exact skipWsGo_cons_not '"' _ (by decide)
          have htail := ih (by simp) (fun x hx => hwf x (List.mem_cons_of_mem _ hx))
            (fun x hx => hrt x (List.mem_cons_of_mem _ hx)) rf ind tl htl g
            ['\n'] ws2 rest (by decide) hws2 (by omega) hrest
          simp only [parseCore]
          rw [hskip]
          dsimp only
          rw [if_pos rfl, parseStrBody_render]
          dsimp only
          rw [skipWsGo_cons_not ':' _ (by decide)]
          dsimp only
          rw [if_pos rfl]
          rw [show (' ' :: (rv ++ (',' :: ('\n' :: (tl ++ ('\n' :: (ws2 ++ ('}' :: rest)))))))) =
              [' '] ++ (rv ++ (',' :: ('\n' :: (tl ++ ('\n' :: (ws2 ++ ('}' :: rest)))))))
            from rfl, hval]
          dsimp only
          rw [skipWsGo_cons_not ',' _ (by decide)]
          dsimp only
          rw [if_pos rfl]
          rw [show ('\n' :: (tl ++ ('\n' :: (ws2 ++ ('}' :: rest))))) =
              ['\n'] ++ (tl ++ ('\n' :: (ws2 ++ ('}' :: rest)))) from rfl, htail]

theorem renderNum_head (n : NumLit) (hok : numOK n = true) :
    ∃ c t, renderNum n = c :: t ∧ (c = '-' ∨ digitCh c = true) := by
  obtain ⟨nneg, nip, nfp, nm, nsg, nds⟩ := n
  simp only [numOK, Bool.and_eq_true] at hok
  obtain ⟨⟨hip, _⟩, _⟩ := hok
  obtain ⟨hipne, hipd⟩ := ipOK_facts nip hip
  cases nneg with
  | true =>
    exact ⟨'-', nip ++ (fracRender nfp ++ expRender nm nsg nds),
      by simp [renderNum, negRender, List.append_assoc], Or.inl rfl⟩
  | false =>
    cases hnip : nip with
    | nil => exact absurd hnip hipne
    | cons d ds =>
      exact ⟨d, ds ++ (fracRender nfp ++ expRender nm nsg nds),
        by simp [renderNum, negRender, hnip, List.append_assoc],
        Or.inr (hipd d (hnip ▸ List.mem_cons_self _ _))⟩

theorem rt_val (j : Jval) (hwf : JWF j) : RtVal j := by
  induction hwf with
  | null =>
    intro rf ind out hr f ws0 rest hws0 hfuel hrest
    cases rf with
    | zero => exact absurd hr (by simp [renderCore])
    | succ rf =>
      have hout : out = 'n' :: 'u' :: 'l' :: 'l' :: [] := (Option.some.inj hr).symm
      rw [hout] at hfuel
      cases f with
      | zero => simp at hfuel
      | succ g =>
        have hskip : skipWsGo (ws0 ++ (out ++ rest)) = 'n' :: ('u' :: 'l' :: 'l' :: rest) := by
          rw [hout, skipWsGo_ws_append ws0 _ hws0]
          exact skipWsGo_cons_not 'n' _ (by decide)
        simp only [parseCore]
        rw [hskip]
        dsimp only
        rw [if_pos rfl]
        rfl
  | bool b =>
    intro rf ind out hr f ws0 rest hws0 hfuel hrest
    cases rf with
    | zero => exact absurd hr (by cases b <;> simp [renderCore])
    | succ rf =>
      cases b with
      | true =>
        have hout : out = 't' :: 'r' :: 'u' :: 'e' :: [] := (Option.some.inj hr).symm
        rw [hout] at hfuel
        cases f with
        | zero => simp at hfuel
        | succ g =>
          have hskip : skipWsGo (ws0 ++ (out ++ rest)) =
              't' :: ('r' :: 'u' :: 'e' :: rest) := by
            rw [hout, skipWsGo_ws_append ws0 _ hws0]
            exact skipWsGo_cons_not 't' _ (by decide)
          simp only [parseCore]
          rw [hskip]
          dsimp only
          rw [if_neg (by decide : ('t' : Char) ≠ 'n'), if_pos rfl]
          rfl
      | false =>
        have hout : out = 'f' :: 'a' :: 'l' :: 's' :: 'e' :: [] := (Option.some.inj hr).symm
        rw [hout] at hfuel
        cases f with
        | zero => simp at hfuel
        | succ g =>
          have hskip : skipWsGo (ws0 ++ (out ++ rest)) =
              'f' :: ('a' :: 'l' :: 's' :: 'e' :: rest) := by
            rw [hout, skipWsGo_ws_append ws0 _ hws0]
            exact skipWsGo_cons_not 'f' _ (by decide)
          simp only [parseCore]
          rw [hskip]
          dsimp only
          rw [if_neg (by decide : ('f' : Char) ≠ 'n'),
            if_neg (by decide : ('f' : Char) ≠ 't'), if_pos rfl]
          rfl
  | num n hok =>
    intro rf ind out hr f ws0 rest hws0 hfuel hrest
    cases rf with
    | zero => exact absurd hr (by simp [renderCore])
    | succ rf =>
      have hout : out = renderNum n := (Option.some.inj hr).symm
      obtain ⟨c, t, hct, hc⟩ := renderNum_head n hok
      have hcn : c ≠ 'n' := by
        rcases hc with hc | hc
        · subst hc; decide
        · exact digitCh_ne hc (by decide)
      have hctt : c ≠ 't' := by
        rcases hc with hc | hc
        · subst hc; decide
        · exact digitCh_ne hc (by decide)
      have hcf : c ≠ 'f' := by
        rcases hc with hc | hc
        · subst hc; decide
        · exact digitCh_ne hc (by decide)
      have hcq : c ≠ '"' := by
        rcases hc with hc | hc
        · subst hc; decide
        · exact digitCh_ne hc (by decide)
      have hcbk : c ≠ '[' := by
        rcases hc with hc | hc
        · subst hc; decide
        · exact digitCh_ne hc (by decide)
      have hcbc : c ≠ '{' := by
        rcases hc with hc | hc
        · subst hc; decide
        · exact digitCh_ne hc (by decide)
      have hcws : jWs c = false := by
        rcases hc with hc | hc
        · subst hc; decide
        · exact digit_not_jWs hc
      cases f with
      | zero => omega
      | succ g =>
        have hskip : skipWsGo (ws0 ++ (out ++ rest)) = c :: (t ++ rest) := by
          rw [hout, hct, skipWsGo_ws_append ws0 _ hws0, List.cons_append]
          exact skipWsGo_cons_not c _ hcws
        simp only [parseCore]
        rw [hskip]
        dsimp only
        rw [if_neg hcn, if_neg hctt, if_neg hcf, if_neg hcq, if_neg hcbk, if_neg hcbc]
        rw [show c :: (t ++ rest) = renderNum n ++ rest from by rw [hct, List.cons_append]]
        rw [parseNumLit_rt n rest hok hrest]
  | str s =>
    intro rf ind out hr f ws0 rest hws0 hfuel hrest
    cases rf with
    | zero => exact absurd hr (by simp [renderCore])
    | succ rf =>
      have hout : out = renderStr s := (Option.some.inj hr).symm
      rw [hout] at hfuel
      cases f with
      | zero => simp [renderStr] at hfuel
      | succ g =>
        have hskip : skipWsGo (ws0 ++ (out ++ rest)) =
            '"' :: ((s.map escCh).flatten ++ '"' :: rest) := by
          rw [hout, skipWsGo_ws_append ws0 _ hws0, renderStr_shape]
          exact skipWsGo_cons_not '"' _ (by decide)
        simp only [parseCore]
        rw [hskip]
        dsimp only
        rw [if_neg (by decide : ('"' : Char) ≠ 'n'),
          if_neg (by decide : ('"' : Char) ≠ 't'),
          if_neg (by decide : ('"' : Char) ≠ 'f'), if_pos rfl, parseStrBody_render]
  | arr es hes ih =>
    intro rf ind out hr f ws0 rest hws0 hfuel hrest
    cases rf with
    | zero => exact absurd hr (by simp [renderCore])
    | succ rf =>
      cases es with
      | nil =>
        have hout : out = ['[', ']'] := (Option.some.inj hr).symm
        rw [hout] at hfuel
        cases f with
        | zero => simp at hfuel
        | succ g =>
          have hskip : skipWsGo (ws0 ++ (out ++ rest)) = '[' :: (']' :: rest) := by
            rw [hout, skipWsGo_ws_append ws0 _ hws0]
            exact skipWsGo_cons_not '[' _ (by decide)
          simp only [parseCore]
          rw [hskip]
          dsimp only
          rw [if_neg (by decide : ('[' : Char) ≠ 'n'),
            if_neg (by decide : ('[' : Char) ≠ 't'),
            if_neg (by decide : ('[' : Char) ≠ 'f'),
            if_neg (by decide : ('[' : Char) ≠ '"'), if_pos rfl]
          rw [skipWsGo_cons_not ']' _ (by decide)]
          dsimp only
          rw [if_pos rfl]
      | cons e es' =>
        cases hit : renderCore rf (ind + 2) (.inr (.inl (e :: es'))) with
        | none => rw [renderCore, hit] at hr; exact absurd hr (by simp)
        | some its =>
          rw [renderCore, hit] at hr
          have hout : out = '[' :: '\n' :: (its ++ '\n' :: (padSp ind ++ [']'])) :=
            (Option.some.inj hr).symm
          have hlen : out.length = its.length + (padSp ind).length + 4 := by
            rw [hout]
            simp [List.length_append]
            omega
          cases f with
          | zero => omega
          | succ g =>
            have hform : out ++ rest =
                '[' :: ('\n' :: (its ++ ('\n' :: (padSp ind ++ (']' :: rest))))) := by
              rw [hout]
              simp [List.append_assoc]
            have hskip : skipWsGo (ws0 ++ (out ++ rest)) =
                '[' :: ('\n' :: (its ++ ('\n' :: (padSp ind ++ (']' :: rest))))) := by
              rw [hform, skipWsGo_ws_append ws0 _ hws0]
              exact skipWsGo_cons_not '[' _ (by decide)
            obtain ⟨c2, t2, hsk2, _, hc2br, _⟩ :=
              renderItems_skipWs rf (ind + 2) e es' its
                (hes e (List.mem_cons_self _ _)) hit
                ('\n' :: (padSp ind ++ (']' :: rest)))
            have hsk2' : skipWsGo ('\n' :: (its ++ ('\n' :: (padSp ind ++ (']' :: rest))))) =
                c2 :: t2 := by
              rw [show ('\n' :: (its ++ ('\n' :: (padSp ind ++ (']' :: rest))))) =
                  ['\n'] ++ (its ++ ('\n' :: (padSp ind ++ (']' :: rest)))) from rfl]
              rw [skipWsGo_ws_append ['\n'] _ (by decide)]
              exact hsk2
            have hitems := rt_items (e :: es') (by simp) hes ih rf (ind + 2) its hit g
              ['\n'] (padSp ind) rest (by decide) (padSp_all_ws ind) (by omega) hrest
            simp only [parseCore]
            rw [hskip]
            dsimp only
            rw [if_neg (by decide : ('[' : Char) ≠ 'n'),
              if_neg (by decide : ('[' : Char) ≠ 't'),
              if_neg (by decide : ('[' : Char) ≠ 'f'),
              if_neg (by decide : ('[' : Char) ≠ '"'), if_pos rfl]
            rw [hsk2']
            dsimp only
            rw [if_neg hc2br]
            rw [show ('\n' :: (its ++ ('\n' :: (padSp ind ++ (']' :: rest))))) =
                ['\n'] ++ (its ++ ('\n' :: (padSp ind ++ (']' :: rest)))) from rfl, hitems]
  | obj ms hms ih =>
    intro rf ind out hr f ws0 rest hws0 hfuel hrest
    cases rf with
    | zero => exact absurd hr (by simp [renderCore])
    | succ rf =>
      cases ms with
      | nil =>
        have hout : out = ['{', '}'] := (Option.some.inj hr).symm
        rw [hout] at hfuel
        cases f with
        | zero => simp at hfuel
        | succ g =>
          have hskip : skipWsGo (ws0 ++ (out ++ rest)) = '{' :: ('}' :: rest) := by
            rw [hout, skipWsGo_ws_append ws0 _ hws0]
            exact skipWsGo_cons_not '{' _ (by decide)
          simp only [parseCore]
          rw [hskip]
          dsimp only
          rw [if_neg (by decide : ('{' : Char) ≠ 'n'),
            if_neg (by decide : ('{' : Char) ≠ 't'),
            if_neg (by decide : ('{' : Char) ≠ 'f'),
            if_neg (by decide : ('{' : Char) ≠ '"'),
            if_neg (by decide : ('{' : Char) ≠ '['), if_pos rfl]
          rw [skipWsGo_cons_not '}' _ (by decide)]
          dsimp only
          rw [if_pos rfl]
      | cons m ms' =>
        obtain ⟨k, v⟩ := m
        cases hit : renderCore rf (ind + 2) (.inr (.inr ((k, v) :: ms'))) with
        | none => rw [renderCore, hit] at hr; exact absurd hr (by simp)
        | some its =>
          rw [renderCore, hit] at hr
          have hout : out = '{' :: '\n' :: (its ++ '\n' :: (padSp ind ++ ['}'])) :=
            (Option.some.inj hr).symm
          have hlen : out.length = its.length + (padSp ind).length + 4 := by
            rw [hout]
            simp [List.length_append]
            omega
          cases f with
          | zero => omega
          | succ g =>
            have hform : out ++ rest =
                '{' :: ('\n' :: (its ++ ('\n' :: (padSp ind ++ ('}' :: rest))))) := by
              rw [hout]
              simp [List.append_assoc]
            have hskip : skipWsGo (ws0 ++ (out ++ rest)) =
                '{' :: ('\n' :: (its ++ ('\n' :: (padSp ind ++ ('}' :: rest))))) := by
              rw [hform, skipWsGo_ws_append ws0 _ hws0]
              exact skipWsGo_cons_not '{' _ (by decide)
            obtain ⟨t2, hsk2⟩ :=
              renderMembers_skipWs rf (ind + 2) k v ms' its hit
                ('\n' :: (padSp ind ++ ('}' :: rest)))
            have hsk2' : skipWsGo ('\n' :: (its ++ ('\n' :: (padSp ind ++ ('}' :: rest))))) =
                '"' :: t2 := by
              rw [show ('\n' :: (its ++ ('\n' :: (padSp ind ++ ('}' :: rest))))) =
                  ['\n'] ++ (its ++ ('\n' :: (padSp ind ++ ('}' :: rest)))) from rfl]
              rw [skipWsGo_ws_append ['\n'] _ (by decide)]
              exact hsk2
            have hitems := rt_members ((k, v) :: ms') (by simp) hms ih rf (ind + 2) its hit g
              ['\n'] (padSp ind) rest (by decide) (padSp_all_ws ind) (by omega) hrest
            simp only [parseCore]
            rw [hskip]
            dsimp only
            rw [if_neg (by decide : ('{' : Char) ≠ 'n'),
              if_neg (by decide : ('{' : Char) ≠ 't'),
              if_neg (by decide : ('{' : Char) ≠ 'f'),
              if_neg (by decide : ('{' : Char) ≠ '"'),
              if_neg (by decide : ('{' : Char) ≠ '['), if_pos rfl]
            rw [hsk2']
            dsimp only
            rw [if_neg (by decide : ('"' : Char) ≠ '}')]
            rw [show ('\n' :: (its ++ ('\n' :: (padSp ind ++ ('}' :: rest))))) =
                ['\n'] ++ (its ++ ('\n' :: (padSp ind ++ ('}' :: rest)))) from rfl, hitems]

/-! ### The top-level round trip and parse soundness -/

theorem jsonRoundTrip (j : Jval) (h : JWF j) :
    jsonUnmarshal (jsonMarshalIndent j) = some j := by
  have htot := renderCore_total (jvalFuel j) (.inl j) 0 (le_refl _)
  rcases hout : renderCore (jvalFuel j) 0 (.inl j) with _ | out
  · rw [hout] at htot; simp at htot
  · have hmi : jsonMarshalIndent j = out := by rw [jsonMarshalIndent, hout]; rfl
    have hp := rt_val j h (jvalFuel j) 0 out hout (2 * out.length + 2) [] []
      (by intro c hc; cases hc) (le_refl _) (by decide)
    rw [List.nil_append, List.append_nil] at hp
    rw [hmi, jsonUnmarshal, hp]
    rfl

theorem takeDigits_fst_all (s : List Char) : (takeDigits s).1.all digitCh = true := by
  simp only [takeDigits, List.all_eq_true]
  intro a ha
  exact List.mem_takeWhile_imp ha

theorem parseExpTail_sound (neg : Bool) (ip fp : List Char) (m : Char) (s : List Char)
    (n : NumLit) (r : List Char) (hm : m = 'e' ∨ m = 'E')
    (hip : ipOK ip = true) (hfp : fp.all digitCh = true)
    (h : parseExpTail neg ip fp m s = some (n, r)) : numOK n = true := by
  have hmm : (m == 'e' || m == 'E') = true := by
    rcases hm with hm | hm <;> simp [hm]
  simp only [parseExpTail, takeDigits] at h
  cases s with
  | nil =>
    dsimp only at h
    rcases hds : ([] : List Char).takeWhile digitCh with _ | ⟨d, ds⟩
    · rw [hds] at h; simp at h
    · simp at hds
  | cons c cs =>
    dsimp only at h
    by_cases hc : c = '+'
    · rw [if_pos hc] at h
      dsimp only at h
      rcases hds : cs.takeWhile digitCh with _ | ⟨d, ds⟩ <;> rw [hds] at h
      · simp at h
      · rw [List.isEmpty_cons, if_neg (by decide : ¬(false = true))] at h
        injection h with h2
        injection h2 with h3 h4
        subst h3
        have hall := takeDigits_fst_all cs
        simp only [takeDigits, hds] at hall
        simp [numOK, expOK, hip, hfp, hmm, hall]
    · rw [if_neg hc] at h
      by_cases hc2 : c = '-'
      · rw [if_pos hc2] at h
        dsimp only at h
        rcases hds : cs.takeWhile digitCh with _ | ⟨d, ds⟩ <;> rw [hds] at h
        · simp at h
        · rw [List.isEmpty_cons, if_neg (by decide : ¬(false = true))] at h
          injection h with h2
          injection h2 with h3 h4
          subst h3
          have hall := takeDigits_fst_all cs
          simp only [takeDigits, hds] at hall
          simp [numOK, expOK, hip, hfp, hmm, hall]
      · rw [if_neg hc2] at h
        dsimp only at h
        rcases hds : (c :: cs).takeWhile digitCh with _ | ⟨d, ds⟩ <;> rw [hds] at h
        · simp at h
        · rw [List.isEmpty_cons, if_neg (by decide : ¬(false = true))] at h
          injection h with h2
          injection h2 with h3 h4
          subst h3
          have hall := takeDigits_fst_all (c :: cs)
          simp only [takeDigits, hds] at hall
          simp [numOK, expOK, hip, hfp, hmm, hall]

theorem parseExpPart_sound (neg : Bool) (ip fp : List Char) (s : List Char)
    (n : NumLit) (r : List Char) (hip : ipOK ip = true) (hfp : fp.all digitCh = true)
    (h : parseExpPart neg ip fp s = some (n, r)) : numOK n = true := by
  simp only [parseExpPart] at h
  cases s with
  | nil =>
    dsimp only at h
    injection h with h2
    injection h2 with h3 h4
    subst h3
    simp [numOK, expOK, hip, hfp]
  | cons c cs =>
    dsimp only at h
    by_cases hc : c = 'e'
    · rw [if_pos hc] at h
      exact parseExpTail_sound neg ip fp 'e' cs n r (Or.inl rfl) hip hfp h
    · rw [if_neg hc] at h
      by_cases hc2 : c = 'E'
      · rw [if_pos hc2] at h
        exact parseExpTail_sound neg ip fp 'E' cs n r (Or.inr rfl) hip hfp h
      · rw [if_neg hc2] at h
        injection h with h2
        injection h2 with h3 h4
        subst h3
        simp [numOK, expOK, hip, hfp]

theorem parseFracPart_sound (neg : Bool) (ip : List Char) (s : List Char)
    (n : NumLit) (r : List Char) (hip : ipOK ip = true)
    (h : parseFracPart neg ip s = some (n, r)) : numOK n = true := by
  simp only [parseFracPart] at h
  cases s with
  | nil =>
    dsimp only at h
    exact parseExpPart_sound neg ip [] [] n r hip (by decide) h
  | cons c cs =>
    dsimp only at h
    by_cases hc : c = '.'
    · rw [if_pos hc] at h
      simp only [takeDigits] at h
      rcases hds : cs.takeWhile digitCh with _ | ⟨d, ds⟩ <;> rw [hds] at h
      · simp at h
      · rw [List.isEmpty_cons, if_neg (by decide : ¬(false = true))] at h
        have hall := takeDigits_fst_all cs
        simp only [takeDigits, hds] at hall
        exact parseExpPart_sound neg ip (d :: ds) _ n r hip hall h
    · rw [if_neg hc] at h
      exact parseExpPart_sound neg ip [] (c :: cs) n r hip (by decide) h

theorem parseNumLit_sound (s : List Char) (n : NumLit) (r : List Char)
    (h : parseNumLit s = some (n, r)) : numOK n = true := by
  simp only [parseNumLit, takeDigits] at h
  cases s with
  | nil =>
    dsimp only at h
    rcases hip : ipOK (([] : List Char).takeWhile digitCh) with _ | _ <;> rw [hip] at h
    · simp at h
    · rw [if_pos rfl] at h
      exact parseFracPart_sound false _ _ n r hip h
  | cons c cs =>
    dsimp only at h
    by_cases hc : c = '-'
    · rw [if_pos hc] at h
      dsimp only at h
      rcases hip : ipOK (cs.takeWhile digitCh) with _ | _ <;> rw [hip] at h
      · simp at h
      · rw [if_pos rfl] at h
        exact parseFracPart_sound true _ _ n r hip h
    · rw [if_neg hc] at h
      dsimp only at h
      rcases hip : ipOK ((c :: cs).takeWhile digitCh) with _ | _ <;> rw [hip] at h
      · simp at h
      · rw [if_pos rfl] at h
        exact parseFracPart_sound false _ _ n r hip h

theorem parseCore_sound : ∀ (f mode : Nat) (s : List Char) (res : PRes) (rest : List Char),
    parseCore f mode s = some (res, rest) → PSound res := by
  intro f
  induction f with
  | zero => intro mode s res rest h; simp [parseCore] at h
  | succ f ih =>
    intro mode s res rest h
    rcases mode with _ | (_ | (_ | m))
    · simp only [parseCore] at h
      rcases hsk : skipWsGo s with _ | ⟨c, r⟩ <;> rw [hsk] at h
      · simp at h
      · dsimp only at h
        by_cases hn : c = 'n'
        · rw [if_pos hn] at h
          split at h
          · injection h with h2
            injection h2 with h3 h4
            subst h3
            exact JWF.null
          · simp at h
        · rw [if_neg hn] at h
          by_cases ht : c = 't'
          · rw [if_pos ht] at h
            split at h
            · injection h with h2
              injection h2 with h3 h4
              subst h3
              exact JWF.bool true
            · simp at h
          · rw [if_neg ht] at h
            by_cases hf : c = 'f'
            · rw [if_pos hf] at h
              split at h
              · injection h with h2
                injection h2 with h3 h4
                subst h3
                exact JWF.bool false
              · simp at h
            · rw [if_neg hf] at h
              by_cases hq : c = '"'
              · rw [if_pos hq] at h
                split at h
                · injection h with h2
                  injection h2 with h3 h4
                  subst h3
                  exact JWF.str _
                · simp at h
              · rw [if_neg hq] at h
                by_cases hbk : c = '['
                · rw [if_pos hbk] at h
                  split at h
                  · simp at h
                  · split at h
                    · injection h with h2
                      injection h2 with h3 h4
                      subst h3
                      exact JWF.arr [] (by intro e he; exact absurd he (List.not_mem_nil e))
                    · split at h
                      · rename_i es r' heq
                        injection h with h2
                        injection h2 with h3 h4
                        subst h3
                        exact JWF.arr es (ih 1 r (.vs es) r' heq)
                      · simp at h
                · rw [if_neg hbk] at h
                  by_cases hbc : c = '{'
                  · rw [if_pos hbc] at h
                    split at h
                    · simp at h
                    · split at h
                      · injection h with h2
                        injection h2 with h3 h4
                        subst h3
                        exact JWF.obj [] (by intro kv hkv; exact absurd hkv (List.not_mem_nil kv))
                      · split at h
                        · rename_i ms r' heq
                          injection h with h2
                          injection h2 with h3 h4
                          subst h3
                          exact JWF.obj ms (ih 2 r (.ms ms) r' heq)
                        · simp at h
                  · rw [if_neg hbc] at h
                    split at h
                    · rename_i nl r' heq
                      injection h with h2
                      injection h2 with h3 h4
                      subst h3
                      exact JWF.num nl (parseNumLit_sound _ nl r' heq)
                    · simp at h
    · simp only [parseCore] at h
      split at h
      · rename_i e r heq
        split at h
        · simp at h
        · split at h
          · split at h
            · rename_i es r'' heq2
              injection h with h2
              injection h2 with h3 h4
              subst h3
              intro x hx
              rcases List.mem_cons.mp hx with hx | hx
              · subst hx
                exact ih 0 s (.v x) r heq
              · exact ih 1 _ (.vs es) r'' heq2 x hx
            · simp at h
          · split at h
            · injection h with h2
              injection h2 with h3 h4
              subst h3
              intro x hx
              rcases List.mem_cons.mp hx with hx | hx
              · subst hx
                exact ih 0 s (.v x) r heq
              · exact absurd hx (List.not_mem_nil x)
            · simp at h
      · simp at h
    · simp only [parseCore] at h
      split at h
      · simp at h
      · split at h
        · split at h
          · rename_i k r1 heq1
            split at h
            · simp at h
            · split at h
              · split at h
                · rename_i v r3 heq2
                  split at h
                  · simp at h
                  · split at h
                    · split at h
                      · rename_i ms r5 heq3
                        injection h with h2
                        injection h2 with h3 h4
                        subst h3
                        intro kv hkv
                        rcases List.mem_cons.mp hkv with hkv | hkv
                        · subst hkv
                          exact ih 0 _ (.v v) r3 heq2
                        · exact ih 2 _ (.ms ms) r5 heq3 kv hkv
                      · simp at h
                    · split at h
                      · injection h with h2
                        injection h2 with h3 h4
                        subst h3
                        intro kv hkv
                        rcases List.mem_cons.mp hkv with hkv | hkv
                        · subst hkv
                          exact ih 0 _ (.v v) r3 heq2
                        · exact absurd hkv (List.not_mem_nil kv)
                      · simp at h
                · simp at h
              · simp at h
          · simp at h
        · simp at h
    · simp [parseCore] at h

/-- A successful unmarshal always yields a grammar-respecting value. -/
theorem jsonUnmarshal_sound (s : List Char) (j : Jval)
    (h : jsonUnmarshal s = some j) : JWF j := by
  simp only [jsonUnmarshal] at h
  split at h
  · rename_i j' rest heq
    split at h
    · injection h with h2
      subst h2
      exact parseCore_sound _ 0 s (.v j') rest heq
    · simp at h
  · simp at h

/-! ### The claims -/

theorem dropWhile_replicate_append (c : Char) (n : Nat) (t : List Char)
    (h : headIs c t = false) :
    List.dropWhile (· == c) (List.replicate n c ++ t) = t := by
  induction n with
  | zero =>
    rw [List.replicate_zero, List.nil_append]
    cases t with
    | nil => rfl
    | cons x xs =>
      simp only [headIs] at h
      simp [List.dropWhile_cons, h]
  | succ k ih =>
    rw [List.replicate_succ, List.cons_append]
    simp [List.dropWhile_cons, ih]

theorem goTrimChar_replicate (c : Char) (n m : Nat) (core : List Char)
    (h1 : headIs c core = false) (h2 : lastIs c core = false) :
    goTrimChar c (List.replicate n c ++ core ++ List.replicate m c) = core := by
  unfold goTrimChar
  cases core with
  | nil =>
    rw [List.append_nil]
    rw [show List.replicate n c ++ List.replicate m c = List.replicate (n + m) c ++ [] from by
      simp [← List.replicate_add]]
    rw [dropWhile_replicate_append c (n + m) [] (by rfl)]
    rfl
  | cons x xs =>
    rw [List.append_assoc]
    rw [dropWhile_replicate_append c n ((x :: xs) ++ List.replicate m c)
      (by simpa [headIs] using h1)]
    rw [List.reverse_append, List.reverse_replicate]
    rw [dropWhile_replicate_append c m (x :: xs).reverse h2]
    exact List.reverse_reverse _

/-- Claim C1: in `runTerragruntStackSubCommandE`, when the subcommand is
`run` the additional arguments sit immediately after a `--` token appended
right after the base vector (which itself contains no `--`); for any other
subcommand the additional arguments are appended directly and no `--`
occurs anywhere in the final vector; and every executed command other than
the probe carries exactly that final vector. -/
theorem stack_separator_rule (p : Bool) (subCommand : String)
    (additionalArgs : List String)
    (hsep : subCommand ≠ "--") (hadd : "--" ∉ additionalArgs) :
    (subCommand = StackCommandRun →
      stackFinalArgs p subCommand additionalArgs =
        stackCommandArgs p subCommand ++ "--" :: additionalArgs ∧
      "--" ∉ stackCommandArgs p subCommand) ∧
    (subCommand ≠ StackCommandRun →
      stackFinalArgs p subCommand additionalArgs =
        stackCommandArgs p subCommand ++ additionalArgs ∧
      "--" ∉ stackFinalArgs p subCommand additionalArgs) ∧
    ∀ (exec : Command → String × Option String) (opts : Options),
      ∀ c ∈ (runTerragruntStackSubCommandE exec opts subCommand additionalArgs).1,
        c = probeCommand opts ∨
        c.args = stackFinalArgs ((exec (probeCommand opts)).2.isNone) subCommand
          additionalArgs := by
  have hbase : "--" ∉ stackCommandArgs p subCommand := by
    intro hmem
    rcases mem_stackCommandArgs "--" p subCommand hmem with h | h | h
    · exact absurd h (by decide)
    · exact absurd h (by decide)
    · exact hsep h.symm
  refine ⟨fun h => ⟨by rw [stackFinalArgs, if_pos h], hbase⟩,
    fun h => ⟨by rw [stackFinalArgs, if_neg h], ?_⟩, ?_⟩
  · rw [stackFinalArgs, if_neg h]
    intro hmem
    rcases List.mem_append.mp hmem with hm | hm
    · exact hbase hm
    · exact hadd hm
  · intro exec opts c hc
    rw [runTerragruntStackSubCommandE_eq] at hc
    rcases hc with _ | ⟨_, hc⟩
    · exact Or.inl rfl
    · exact Or.inr (congrArg Command.args (List.eq_of_mem_replicate (by assumption)))

theorem stack_separator_rule_witness :
    stackFinalArgs true "run" ["plan"] =
      stackCommandArgs true "run" ++ "--" :: ["plan"] ∧
    "--" ∉ stackCommandArgs true "run" :=
  (stack_separator_rule true "run" ["plan"] (by decide) (by decide)).1 rfl

/-- Claim C2 counterexample: on `""x""` the filtered output starts and ends
with a double quote and is not JSON, yet `cleanTerragruntOutput` strips all
four edge quotes (Go `strings.Trim` removes every leading and trailing
occurrence), returning `x` instead of the single-pair result `"x"`. -/
theorem clean_output_quotes_counterexample :
    headIs '"' (goTrimSpace (tgJoinLines (tgFilteredLines "\"\"x\"\"".data))) = true ∧
    lastIs '"' (goTrimSpace (tgJoinLines (tgFilteredLines "\"\"x\"\"".data))) = true ∧
    headIs '{' (goTrimSpace (tgJoinLines (tgFilteredLines "\"\"x\"\"".data))) = false ∧
    headIs '[' (goTrimSpace (tgJoinLines (tgFilteredLines "\"\"x\"\"".data))) = false ∧
    cleanTerragruntOutput "\"\"x\"\"" = "x" ∧
    cleanTerragruntOutput "\"\"x\"\"" ≠ "\"x\"" := by decide

/-- Claim C2 (amended): on a filtered output that is not JSON-shaped and
both starts and ends with a double quote, `cleanTerragruntOutput` applies
`strings.Trim`, which removes ALL leading and trailing double quotes (not
just one pair) and leaves the interior unchanged: the result is exactly
`goTrimChar`, which on `"^n core "^m` with a quote-free-edged core gives
`core`. -/
theorem clean_output_quote_strip (raw : String)
    (hne : (tgFilteredLines raw.data).isEmpty = false)
    (hnj : headIs '{' (goTrimSpace (tgJoinLines (tgFilteredLines raw.data))) = false)
    (hnb : headIs '[' (goTrimSpace (tgJoinLines (tgFilteredLines raw.data))) = false)
    (hq1 : headIs '"' (goTrimSpace (tgJoinLines (tgFilteredLines raw.data))) = true)
    (hq2 : lastIs '"' (goTrimSpace (tgJoinLines (tgFilteredLines raw.data))) = true) :
    cleanTerragruntOutput raw =
      String.mk (goTrimChar '"' (goTrimSpace (tgJoinLines (tgFilteredLines raw.data)))) ∧
    ∀ (n m : Nat) (core : List Char), headIs '"' core = false → lastIs '"' core = false →
      goTrimChar '"' (List.replicate n '"' ++ core ++ List.replicate m '"') = core := by
  constructor
  · show String.mk (cleanTerragruntOutputL raw.data) = _
    simp [cleanTerragruntOutputL, hne, hnj, hnb, hq1, hq2]
  · exact fun n m core h1 h2 => goTrimChar_replicate '"' n m core h1 h2

theorem clean_output_quote_strip_witness :
    cleanTerragruntOutput "\"a\\\"b\"" =
      String.mk (goTrimChar '"' (goTrimSpace (tgJoinLines (tgFilteredLines "\"a\\\"b\"".data)))) ∧
    ∀ (n m : Nat) (core : List Char), headIs '"' core = false → lastIs '"' core = false →
      goTrimChar '"' (List.replicate n '"' ++ core ++ List.replicate m '"') = core :=
  clean_output_quote_strip "\"a\\\"b\"" (by decide) (by decide) (by decide) (by decide)
    (by decide)

/-- Claim C3: when, scanning the mapping in order, the first pattern `p`
whose regex `\nWarning: p[^\n]*\n` has a match in the output is reached
(all earlier patterns compile and have no match), `hasWarning` returns an
error containing the message configured for `p` and every matched warning
line (the matches, each ending in its newline, concatenated); and on a
mapping where every pattern compiles and none matches it returns no
error. -/
theorem warning_classifier_reports (opts : Options) (l1 : List (String × String))
    (p m : String) (l2 : List (String × String)) (out : String)
    (hw : opts.warningsAsErrors = l1 ++ (p, m) :: l2)
    (h1 : ∀ pm ∈ l1, (rxCompile (warnPat pm.1)).isSome = true ∧ warnMatches pm.1 out = [])
    (hp : (rxCompile (warnPat p)).isSome = true)
    (hm : warnMatches p out ≠ []) :
    (∃ err, hasWarning opts out = some err ∧
      containsStr m err = true ∧
      ∀ line ∈ warnMatches p out, containsTok line err.data = true) ∧
    ∀ opts2 : Options,
      (∀ pm ∈ opts2.warningsAsErrors,
        (rxCompile (warnPat pm.1)).isSome = true ∧ warnMatches pm.1 out = []) →
      hasWarning opts2 out = none := by
  constructor
  · refine ⟨warnErrMsg m (warnMatches p out), ?_, containsStr_warnErrMsg m _,
      fun line hl => containsTok_warnErrMsg_of_mem m _ line hl⟩
    rw [hasWarning, hw]
    exact hasWarningL_first_match l1 p m l2 out h1 hp hm
  · intro opts2 h
    rw [hasWarning]
    exact hasWarningL_none_of_no_match _ out h

theorem warning_classifier_reports_witness :
    (∃ err,
      hasWarning ⟨"tg", "d", [], [], [], 0, 0, [("Deprecat", "deprecated features used")]⟩
        "ok\nWarning: Deprecated option X\ndone" = some err ∧
      containsStr "deprecated features used" err = true ∧
      ∀ line ∈ warnMatches "Deprecat" "ok\nWarning: Deprecated option X\ndone",
        containsTok line err.data = true) ∧
    ∀ opts2 : Options,
      (∀ pm ∈ opts2.warningsAsErrors,
        (rxCompile (warnPat pm.1)).isSome = true ∧
        warnMatches pm.1 "ok\nWarning: Deprecated option X\ndone" = []) →
      hasWarning opts2 "ok\nWarning: Deprecated option X\ndone" = none :=
  warning_classifier_reports
    ⟨"tg", "d", [], [], [], 0, 0, [("Deprecat", "deprecated features used")]⟩
    [] "Deprecat" "deprecated features used" [] "ok\nWarning: Deprecated option X\ndone"
    rfl (by simp) (by decide) (by decide)

/-- Claim C4 counterexample: the warnings-as-errors mapping is a Go map,
whose iteration order is unspecified; for two enumeration orders of the
same two-pattern mapping, on an output where both patterns match, the two
runs return different errors, so the result is not determined by the
mapping alone. -/
theorem warning_order_counterexample :
    ([("AAA", "err A"), ("BBB", "err B")] : List (String × String)).Perm
        [("BBB", "err B"), ("AAA", "err A")] ∧
    hasWarning ⟨"tg", "d", [], [], [], 0, 0, [("AAA", "err A"), ("BBB", "err B")]⟩
        "\nWarning: AAAx\nWarning: BBBy\n" =
      some "warning(s) were found: err A:\n\nWarning: AAAx\n" ∧
    hasWarning ⟨"tg", "d", [], [], [], 0, 0, [("BBB", "err B"), ("AAA", "err A")]⟩
        "\nWarning: AAAx\nWarning: BBBy\n" =
      some "warning(s) were found: err B:\n\nWarning: BBBy\n" ∧
    hasWarning ⟨"tg", "d", [], [], [], 0, 0, [("AAA", "err A"), ("BBB", "err B")]⟩
        "\nWarning: AAAx\nWarning: BBBy\n" ≠
      hasWarning ⟨"tg", "d", [], [], [], 0, 0, [("BBB", "err B"), ("AAA", "err A")]⟩
        "\nWarning: AAAx\nWarning: BBBy\n" := by
  refine ⟨List.Perm.swap _ _ _, by decide, by decide, by decide⟩

/-- Claim C4 (amended): over one FIXED enumeration order of the mapping,
`hasWarning` is deterministic with first-match-wins short-circuit: the
first matching pattern alone decides the error, and the entries after it
are irrelevant (replacing them changes nothing); across different
enumeration orders of the same map the result can differ (see the
counterexample). -/
theorem warning_order_first_match (l1 : List (String × String))
    (p m : String) (out : String)
    (h1 : ∀ pm ∈ l1, (rxCompile (warnPat pm.1)).isSome = true ∧ warnMatches pm.1 out = [])
    (hp : (rxCompile (warnPat p)).isSome = true)
    (hm : warnMatches p out ≠ []) :
    ∀ l2 l2' : List (String × String),
      hasWarningL (l1 ++ (p, m) :: l2) out = some (warnErrMsg m (warnMatches p out)) ∧
      hasWarningL (l1 ++ (p, m) :: l2) out = hasWarningL (l1 ++ (p, m) :: l2') out := by
  intro l2 l2'
  exact ⟨hasWarningL_first_match l1 p m l2 out h1 hp hm,
    (hasWarningL_first_match l1 p m l2 out h1 hp hm).trans
      (hasWarningL_first_match l1 p m l2' out h1 hp hm).symm⟩

theorem warning_order_first_match_witness :
    hasWarningL ([] ++ ("Deprecat", "dep") :: [("X", "mx")])
        "\nWarning: Deprecated option\n" =
      some (warnErrMsg "dep" (warnMatches "Deprecat" "\nWarning: Deprecated option\n")) ∧
    hasWarningL ([] ++ ("Deprecat", "dep") :: [("X", "mx")])
        "\nWarning: Deprecated option\n" =
      hasWarningL ([] ++ ("Deprecat", "dep") :: [("Y", "my")])
        "\nWarning: Deprecated option\n" :=
  warning_order_first_match [] "Deprecat" "dep" "\nWarning: Deprecated option\n"
    (by simp) (by decide) (by decide) [("X", "mx")] [("Y", "my")]

/-- Claim C5 counterexample: a malformed pattern is NOT reported
independently of the other patterns: when a pattern earlier in the
iteration order matches the output, `hasWarning` returns that warning
error and the malformed pattern `(` is never compiled, so no configuration
error is raised. -/
theorem warning_compile_preempted_counterexample :
    rxCompile (warnPat "(") = none ∧
    hasWarning ⟨"tg", "d", [], [], [], 0, 0, [("Deprecat", "m1"), ("(", "m2")]⟩
        "\nWarning: Deprecated thing\n" =
      some "warning(s) were found: m1:\n\nWarning: Deprecated thing\n" ∧
    ("warning(s) were found: m1:\n\nWarning: Deprecated thing\n" : String) ≠
      compileErrMsg "(" := by decide

/-- Claim C5 (amended): a malformed pattern is reported as a configuration
error (for every output) exactly when it is reached: all patterns before
it in the iteration order compile and fail to match; a matching earlier
pattern preempts it (see the counterexample). -/
theorem warning_compile_error_reported (opts : Options) (l1 : List (String × String))
    (p m : String) (l2 : List (String × String)) (out : String)
    (hw : opts.warningsAsErrors = l1 ++ (p, m) :: l2)
    (h1 : ∀ pm ∈ l1, (rxCompile (warnPat pm.1)).isSome = true ∧ warnMatches pm.1 out = [])
    (hp : rxCompile (warnPat p) = none) :
    hasWarning opts out = some (compileErrMsg p) := by
  rw [hasWarning, hw]
  exact hasWarningL_compile_fail l1 p m l2 out h1 hp

theorem warning_compile_error_reported_witness :
    hasWarning ⟨"tg", "d", [], [], [], 0, 0, [("(", "m2")]⟩ "any output" =
      some (compileErrMsg "(") :=
  warning_compile_error_reported ⟨"tg", "d", [], [], [], 0, 0, [("(", "m2")]⟩
    [] "(" "m2" [] "any output" rfl (by simp) (by decide)

/-- Claim C6 counterexample: a classifier-raised warning error is NOT
always terminal: with retryable pattern `warning`, maxRetries 2 and a
successful execution whose output trips the warning classifier, the
warning error text matches the retryable pattern and the call runs 3
attempts — the policy failure consumed the whole retry budget instead of
surfacing immediately. -/
theorem warning_retried_counterexample :
    isRetryableErr [("warning", "transient")]
      "warning(s) were found: dep used:\n\nWarning: Deprecated thing\n" = true ∧
    (runTerragruntStackSubCommandE (fun _ => ("\nWarning: Deprecated thing\n", none))
        ⟨"tg", "d", [], [], [("warning", "transient")], 2, 0, [("Deprecat", "dep used")]⟩
        "" []).2.1 = 3 ∧
    (runTerragruntStackSubCommandE (fun _ => ("\nWarning: Deprecated thing\n", none))
        ⟨"tg", "d", [], [], [("warning", "transient")], 2, 0, [("Deprecat", "dep used")]⟩
        "" []).2.2.2 =
      some "warning(s) were found: dep used:\n\nWarning: Deprecated thing\n" := by decide

/-- Claim C6 (amended; the retry helper is spec-modelled): a classifier
error raised on a successful execution is terminal exactly because its
text matches no retryable pattern: then the call returns after one attempt
with that error, consuming no retry; but a warning error whose text does
match a retryable pattern is retried like any other failure (see the
counterexample). -/
theorem warning_error_terminal (exec : Command → String × Option String)
    (opts : Options) (subCommand : String) (additionalArgs : List String)
    (out w : String)
    (hexec : exec (generateCommand opts
      (stackFinalArgs ((exec (probeCommand opts)).2.isNone) subCommand additionalArgs)) =
      (out, none))
    (hwarn : hasWarningL opts.warningsAsErrors out = some w)
    (hnr : isRetryableErr opts.retryableTerraformErrors w = false) :
    (runTerragruntStackSubCommandE exec opts subCommand additionalArgs).2 =
      (1, (out, some w)) := by
  have hact : stackActionResult opts.warningsAsErrors
      (exec (generateCommand opts
        (stackFinalArgs ((exec (probeCommand opts)).2.isNone) subCommand
          additionalArgs))) = (out, some w) := by
    rw [hexec]
    simp [stackActionResult, hwarn]
  rw [runTerragruntStackSubCommandE_eq]
  dsimp only
  rw [hact, DoWithRetryableErrorsE]
  exact doRetryAux_not_retryable _ out w _ hnr

theorem warning_error_terminal_witness :
    (runTerragruntStackSubCommandE (fun _ => ("\nWarning: Deprecated x\n", none))
        ⟨"tg", "d", [], [], [("cannot connect", "net")], 2, 0, [("Deprecat", "dep")]⟩
        "" []).2 =
      (1, ("\nWarning: Deprecated x\n",
        some "warning(s) were found: dep:\n\nWarning: Deprecated x\n")) :=
  warning_error_terminal (fun _ => ("\nWarning: Deprecated x\n", none))
    ⟨"tg", "d", [], [], [("cannot connect", "net")], 2, 0, [("Deprecat", "dep")]⟩
    "" [] "\nWarning: Deprecated x\n"
    "warning(s) were found: dep:\n\nWarning: Deprecated x\n"
    rfl (by decide) (by decide)

/-- Claim C7 counterexample: the run/generate path does not validate: with
an empty binary and directory, `runTerragruntStackSubCommandE` still
executes the capability probe (the trace head is the probe command with
empty binary) and surfaces the process error, not a configuration
error. -/
theorem validate_missing_counterexample :
    validateOptions ⟨"", "", [], [], [], 0, 0, []⟩ = some "TerragruntBinary is required" ∧
    (runTerragruntStackSubCommandE (fun _ => ("boom", some "exec failed"))
        ⟨"", "", [], [], [], 0, 0, []⟩ "" []).1.head? =
      some { command := "", args := ["-experiment", "stack"], workingDir := "", env := [] } ∧
    (runTerragruntStackSubCommandE (fun _ => ("boom", some "exec failed"))
        ⟨"", "", [], [], [], 0, 0, []⟩ "" []).2.2.2 = some "exec failed" := by decide

/-- Claim C7 (amended; validateOptions is spec-modelled): only the stack
output path checks the invariant: with an empty binary path or working
directory, `runTerragruntStackOutputCommand` returns the configuration
error with an empty trace and zero attempts (nothing executes, nothing is
retried); the run/generate path performs no such validation and probes
regardless (see the counterexample). -/
theorem output_path_validates (exec : Command → String × Option String)
    (options : Options) (outputArgs : List String) (e : String)
    (hv : validateOptions options = some e) :
    runTerragruntStackOutputCommand exec options outputArgs = ([], (0, ("", some e))) ∧
    (options.terragruntBinary = "" ∨ options.terragruntDir = "") := by
  constructor
  · unfold runTerragruntStackOutputCommand
    rw [hv]
  · by_cases hb : options.terragruntBinary = ""
    · exact Or.inl hb
    · unfold validateOptions at hv
      rw [if_neg hb] at hv
      by_cases hd : options.terragruntDir = ""
      · exact Or.inr hd
      · rw [if_neg hd] at hv
        exact absurd hv (by simp)

theorem output_path_validates_witness :
    runTerragruntStackOutputCommand (fun _ => ("boom", some "exec failed"))
        ⟨"", "", [], [], [], 0, 0, []⟩ ["-no-color"] =
      ([], (0, ("", some "TerragruntBinary is required"))) ∧
    ((⟨"", "", [], [], [], 0, 0, []⟩ : Options).terragruntBinary = "" ∨
      (⟨"", "", [], [], [], 0, 0, []⟩ : Options).terragruntDir = "") :=
  output_path_validates (fun _ => ("boom", some "exec failed"))
    ⟨"", "", [], [], [], 0, 0, []⟩ ["-no-color"] "TerragruntBinary is required" rfl

/-- Claim C8 counterexample: the round trip fails on a valid JSON payload
containing a ` msg=` substring inside a string value: the defensive
per-line filter deletes the payload line, so `cleanTerragruntJson` returns
a parse error even though the original payload parses. -/
theorem json_roundtrip_counterexample :
    (jsonUnmarshal "\x7b\"a\":\"x msg= y\"\x7d".data).isSome = true ∧
    cleanTerragruntJson
      "time=1 level=2 prefix=3 binary=4 msg=5\n\x7b\"a\":\"x msg= y\"\x7d" = none := by
  decide

/-- Claim C8 (amended): the round trip holds whenever the log-filtered
remainder still parses: if filtering the raw output leaves a valid JSON
document `j`, then `cleanTerragruntJson` succeeds with the two-space
indented rendering of `j`, and re-parsing that rendering yields exactly
`j`; the original-payload version fails when the payload itself contains
a ` msg=` substring (see the counterexample). -/
theorem json_roundtrip (raw : String) (j : Jval)
    (h : jsonUnmarshal (tgJoinLines (tgFilteredLines raw.data)) = some j) :
    cleanTerragruntJson raw = some (String.mk (jsonMarshalIndent j)) ∧
    jsonUnmarshal (jsonMarshalIndent j) = some j := by
  refine ⟨?_, jsonRoundTrip j (jsonUnmarshal_sound _ j h)⟩
  unfold cleanTerragruntJson cleanTerragruntJsonL
  dsimp only
  rw [h]
  rfl

theorem json_roundtrip_witness :
    cleanTerragruntJson "time=1 level=2 prefix=3 binary=4 msg=5\n\x7b\"a\": 1\x7d" =
      some (String.mk (jsonMarshalIndent
        (Jval.obj [(['a'], Jval.num ⟨false, ['1'], [], none, none, []⟩)]))) ∧
    jsonUnmarshal (jsonMarshalIndent
        (Jval.obj [(['a'], Jval.num ⟨false, ['1'], [], none, none, []⟩)])) =
      some (Jval.obj [(['a'], Jval.num ⟨false, ['1'], [], none, none, []⟩)]) :=
  json_roundtrip "time=1 level=2 prefix=3 binary=4 msg=5\n\x7b\"a\": 1\x7d"
    (Jval.obj [(['a'], Jval.num ⟨false, ['1'], [], none, none, []⟩)]) rfl

theorem notMem_outputVector (x key : String) (extra : List String) (js : List String)
    (hx1 : x ∉ extra) (hx2 : key ≠ x) (hxj : x ∉ js)
    (h3 : x ≠ "stack") (h4 : x ≠ "output") (h5 : x ≠ "-no-color") :
    x ∉ ("stack" :: "output" :: "-no-color" ::
      (js ++ (extra ++ (if key = "" then [] else [key])))) := by
  intro hm
  simp only [List.mem_cons, List.mem_append] at hm
  rcases hm with h | h | h | h | h | h
  · exact h3 h
  · exact h4 h
  · exact h5 h
  · exact hxj h
  · exact hx1 h
  · by_cases hk : key = ""
    · rw [if_pos hk] at h
      exact absurd h (List.not_mem_nil x)
    · rw [if_neg hk] at h
      rw [List.mem_singleton] at h
      exact hx2 h.symm

/-- Claim C10: every command executed by `TgOutputE` has the argument
vector `stack output -no-color <extra> <key>`, and by `TgOutputJsonE`
`stack output -no-color -json <extra> <key>` (key present exactly when
non-empty); provided the caller-supplied extra arguments and key are not
themselves `--` or `-experiment`, no `--` and no `-experiment` token
occurs, and the capability probe is never among the executed commands. -/
theorem output_args_vector (exec : Command → String × Option String)
    (options : Options) (key : String)
    (hsep : "--" ∉ options.extraArgs) (hsep2 : key ≠ "--")
    (hexp : "-experiment" ∉ options.extraArgs) (hexp2 : key ≠ "-experiment") :
    (∀ c ∈ (TgOutputE exec options key).1,
      c = generateCommand options ("stack" :: "output" :: "-no-color" ::
        (options.extraArgs ++ (if key = "" then [] else [key]))) ∧
      "--" ∉ c.args ∧ "-experiment" ∉ c.args ∧ c ≠ probeCommand options) ∧
    (∀ c ∈ (TgOutputJsonE exec options key).1,
      c = generateCommand options ("stack" :: "output" :: "-no-color" :: "-json" ::
        (options.extraArgs ++ (if key = "" then [] else [key]))) ∧
      "--" ∉ c.args ∧ "-experiment" ∉ c.args ∧ c ≠ probeCommand options) := by
  constructor
  · intro c hc
    rw [TgOutputE_trace] at hc
    have hceq := runTerragruntStackOutputCommand_args exec options _ c hc
    refine ⟨hceq, ?_, ?_, ?_⟩
    · rw [hceq]
      exact notMem_outputVector "--" key options.extraArgs [] hsep hsep2
        (List.not_mem_nil _) (by decide) (by decide) (by decide)
    · rw [hceq]
      exact notMem_outputVector "-experiment" key options.extraArgs [] hexp hexp2
        (List.not_mem_nil _) (by decide) (by decide) (by decide)
    · intro heq
      have h2 := congrArg Command.args (hceq.symm.trans heq)
      simp [generateCommand, probeCommand] at h2
  · intro c hc
    rw [TgOutputJsonE_trace] at hc
    have hceq := runTerragruntStackOutputCommand_args exec options _ c hc
    refine ⟨hceq, ?_, ?_, ?_⟩
    · rw [hceq]
      exact notMem_outputVector "--" key options.extraArgs ["-json"] hsep hsep2
        (by decide) (by decide) (by decide) (by decide)
    · rw [hceq]
      exact notMem_outputVector "-experiment" key options.extraArgs ["-json"] hexp hexp2
        (by decide) (by decide) (by decide) (by decide)
    · intro heq
      have h2 := congrArg Command.args (hceq.symm.trans heq)
      simp [generateCommand, probeCommand] at h2

theorem output_args_vector_witness :
    (∀ c ∈ (TgOutputE (fun _ => ("out", none))
        ⟨"tg", "d", [], ["-lock=false"], [], 0, 0, []⟩ "vpc_id").1,
      c = generateCommand ⟨"tg", "d", [], ["-lock=false"], [], 0, 0, []⟩
        ("stack" :: "output" :: "-no-color" ::
          (["-lock=false"] ++ (if ("vpc_id" : String) = "" then [] else ["vpc_id"]))) ∧
      "--" ∉ c.args ∧ "-experiment" ∉ c.args ∧
        c ≠ probeCommand ⟨"tg", "d", [], ["-lock=false"], [], 0, 0, []⟩) ∧
    (∀ c ∈ (TgOutputJsonE (fun _ => ("out", none))
        ⟨"tg", "d", [], ["-lock=false"], [], 0, 0, []⟩ "vpc_id").1,
      c = generateCommand ⟨"tg", "d", [], ["-lock=false"], [], 0, 0, []⟩
        ("stack" :: "output" :: "-no-color" :: "-json" ::
          (["-lock=false"] ++ (if ("vpc_id" : String) = "" then [] else ["vpc_id"]))) ∧
      "--" ∉ c.args ∧ "-experiment" ∉ c.args ∧
        c ≠ probeCommand ⟨"tg", "d", [], ["-lock=false"], [], 0, 0, []⟩) :=
  output_args_vector (fun _ => ("out", none))
    ⟨"tg", "d", [], ["-lock=false"], [], 0, 0, []⟩ "vpc_id"
    (by decide) (by decide) (by decide) (by decide)

/-! ### Split/join and trim fixed points, for the idempotence claim -/

theorem tgSplitLines_ne_nil (s : List Char) : tgSplitLines s ≠ [] := by
  cases s with
  | nil => simp [tgSplitLines]
  | cons c cs =>
    simp only [tgSplitLines]
    by_cases hc : c = '\n'
    · rw [if_pos hc]
      simp
    · rw [if_neg hc]
      cases h : tgSplitLines cs <;> simp

theorem tgJoinLines_split (s : List Char) : tgJoinLines (tgSplitLines s) = s := by
  induction s with
  | nil => rfl
  | cons c cs ih =>
    simp only [tgSplitLines]
    by_cases hc : c = '\n'
    · rw [if_pos hc]
      cases h : tgSplitLines cs with
      | nil => exact absurd h (tgSplitLines_ne_nil cs)
      | cons l ls =>
        rw [h] at ih
        rw [show tgJoinLines ([] :: l :: ls) = [] ++ '\n' :: tgJoinLines (l :: ls) from rfl]
        rw [ih, hc]
        rfl
    · rw [if_neg hc]
      cases h : tgSplitLines cs with
      | nil => exact absurd h (tgSplitLines_ne_nil cs)
      | cons l ls =>
        rw [h] at ih
        cases ls with
        | nil =>
          show c :: l = c :: cs
          rw [show tgJoinLines [l] = l from rfl] at ih
          rw [ih]
        | cons l2 ls2 =>
          show (c :: l) ++ '\n' :: tgJoinLines (l2 :: ls2) = c :: cs
          rw [List.cons_append,
            show l ++ '\n' :: tgJoinLines (l2 :: ls2) = tgJoinLines (l :: l2 :: ls2) from rfl,
            ih]

theorem filterMap_id_of {α : Type} (f : α → Option α) (ls : List α)
    (h : ∀ l ∈ ls, f l = some l) : ls.filterMap f = ls := by
  induction ls with
  | nil => rfl
  | cons x xs ih =>
    rw [List.filterMap_cons, h x (List.mem_cons_self _ _),
      ih fun l hl => h l (List.mem_cons_of_mem _ hl)]

theorem tgFilteredLines_id (raw : List Char)
    (h : ∀ l ∈ tgSplitLines raw, matchesTgLog l = false ∧
      containsTok " msg=".data l = false ∧ goTrimSpace l = l ∧ l ≠ []) :
    tgFilteredLines raw = tgSplitLines raw := by
  unfold tgFilteredLines
  have hmap : (tgSplitLines raw).map tgReplaceLogLine = tgSplitLines raw := by
    have hcong : ∀ l ∈ tgSplitLines raw, tgReplaceLogLine l = id l := by
      intro l hl
      simp [tgReplaceLogLine, (h l hl).1]
    rw [List.map_congr_left hcong, List.map_id]
  rw [hmap]
  apply filterMap_id_of
  intro l hl
  obtain ⟨-, hmsg, htrim, hne⟩ := h l hl
  dsimp only
  rw [htrim, hmsg, isEmpty_false_of_ne_nil hne]
  rfl

theorem dropWhile_cons_false {p : Char → Bool} {c : Char} {t : List Char}
    (h : p c = false) : List.dropWhile p (c :: t) = c :: t := by
  simp [List.dropWhile_cons, h]

theorem length_dropWhile_le (p : Char → Bool) (l : List Char) :
    (List.dropWhile p l).length ≤ l.length := by
  induction l with
  | nil => exact le_refl 0
  | cons x xs ih =>
    rw [List.dropWhile_cons]
    by_cases h : p x = true
    · rw [if_pos h]
      exact le_trans ih (by simp)
    · rw [if_neg h]

theorem dropWhile_eq_self_of_length (p : Char → Bool) (l : List Char)
    (h : (List.dropWhile p l).length = l.length) : List.dropWhile p l = l := by
  cases l with
  | nil => rfl
  | cons x xs =>
    rw [List.dropWhile_cons] at h ⊢
    by_cases hp : p x = true
    · rw [if_pos hp] at h
      exfalso
      have := length_dropWhile_le p xs
      rw [List.length_cons] at h
      omega
    · rw [if_neg hp]

theorem dropWhile_fix_head (p : Char → Bool) (c : Char) (t : List Char)
    (h : List.dropWhile p (c :: t) = c :: t) : p c = false := by
  cases hpc : p c with
  | false => rfl
  | true =>
    exfalso
    rw [List.dropWhile_cons, hpc, if_pos rfl] at h
    have hlen : (List.dropWhile p t).length = t.length + 1 := by rw [h]; rfl
    have hle := length_dropWhile_le p t
    omega

theorem goDropSpace_fix (s : List Char) (h : goTrimSpace s = s) : goDropSpace s = s := by
  have h1 : (goTrimSpace s).length ≤ (goDropSpace s).length := by
    unfold goTrimSpace
    rw [List.length_reverse]
    calc (List.dropWhile goIsSpace (goDropSpace s).reverse).length
        ≤ (goDropSpace s).reverse.length := length_dropWhile_le _ _
      _ = (goDropSpace s).length := List.length_reverse _
  have h2 : (goDropSpace s).length ≤ s.length := length_dropWhile_le _ _
  have h3 : (goTrimSpace s).length = s.length := by rw [h]
  have h4 : (goDropSpace s).length = s.length := by omega
  simp only [goDropSpace] at h4
  exact dropWhile_eq_self_of_length goIsSpace s h4

theorem trim_fix_head (s : List Char) (h : goTrimSpace s = s) (c : Char) (t : List Char)
    (hs : s = c :: t) : goIsSpace c = false := by
  have hd := goDropSpace_fix s h
  rw [hs] at hd
  exact dropWhile_fix_head goIsSpace c t hd

theorem trim_fix_last (s : List Char) (h : goTrimSpace s = s) (c : Char) (t : List Char)
    (hs : s.reverse = c :: t) : goIsSpace c = false := by
  have hd := goDropSpace_fix s h
  have h2 : List.dropWhile goIsSpace s.reverse = s.reverse := by
    have hform : goTrimSpace s = (List.dropWhile goIsSpace s.reverse).reverse := by
      unfold goTrimSpace
      rw [show goDropSpace s = s from hd]
    rw [h] at hform
    have h3 := congrArg List.reverse hform
    rw [List.reverse_reverse] at h3
    exact h3.symm
  rw [hs] at h2
  exact dropWhile_fix_head goIsSpace c t h2

theorem goTrimSpace_eq_self_of_ends (s : List Char)
    (hh : ∀ c t, s = c :: t → goIsSpace c = false)
    (hl : ∀ c t, s.reverse = c :: t → goIsSpace c = false) :
    goTrimSpace s = s := by
  cases hs : s with
  | nil => rfl
  | cons c t =>
    unfold goTrimSpace goDropSpace
    rw [dropWhile_cons_false (hh c t hs)]
    cases hr : (c :: t).reverse with
    | nil => simp at hr
    | cons c2 t2 =>
      rw [dropWhile_cons_false (hl c2 t2 (by rw [hs]; exact hr))]
      have h3 := congrArg List.reverse hr
      rw [List.reverse_reverse] at h3
      exact h3.symm

theorem getLast?_append_right (a b : List Char) (hb : b ≠ []) :
    (a ++ b).getLast? = b.getLast? := by
  rw [← List.head?_reverse, ← List.head?_reverse, List.reverse_append]
  cases hr : b.reverse with
  | nil =>
    exfalso
    have := congrArg List.reverse hr
    rw [List.reverse_reverse] at this
    exact hb (by simpa using this)
  | cons x xs => rfl

theorem tgJoinLines_head? (l : List Char) (ls : List (List Char)) (hl : l ≠ []) :
    (tgJoinLines (l :: ls)).head? = l.head? := by
  cases ls with
  | nil => rfl
  | cons l2 ls2 =>
    show (l ++ '\n' :: tgJoinLines (l2 :: ls2)).head? = l.head?
    cases l with
    | nil => exact absurd rfl hl
    | cons c t => rfl

theorem tgJoinLines_getLast? : ∀ (ls : List (List Char)) (l : List Char), l ≠ [] →
    (tgJoinLines (ls ++ [l])).getLast? = l.getLast? := by
  intro ls
  induction ls with
  | nil => intro l _; rfl
  | cons l1 ls' ih =>
    intro l hl
    have hjoin : tgJoinLines ((l1 :: ls') ++ [l]) =
        l1 ++ '\n' :: tgJoinLines (ls' ++ [l]) := by
      cases ls' <;> rfl
    rw [hjoin, getLast?_append_right l1 _ (by simp)]
    rw [show ('\n' :: tgJoinLines (ls' ++ [l])) = ['\n'] ++ tgJoinLines (ls' ++ [l]) from rfl]
    cases hj : tgJoinLines (ls' ++ [l]) with
    | nil =>
      exfalso
      have hlast := ih l hl
      rw [hj] at hlast
      cases l with
      | nil => exact hl rfl
      | cons c t =>
        rw [show (([] : List Char).getLast?) = none from rfl] at hlast
        have h2 := List.getLast?_isSome.mpr (show (c :: t) ≠ [] by simp)
        rw [← hlast] at h2
        simp at h2
    | cons x xs =>
      rw [getLast?_append_right ['\n'] (x :: xs) (by simp), ← hj]
      exact ih l hl

/-- Claim C9 counterexample: the input ` x` contains no log line, no
` msg=`, no blank line and no surrounding quotes, yet
`cleanTerragruntOutput` returns `x`: the per-line `TrimSpace` and the final
`TrimSpace` make cleaning already-"clean" output change it whenever a line
carries edge whitespace. -/
theorem clean_output_identity_counterexample :
    matchesTgLog " x".data = false ∧
    containsTok " msg=".data " x".data = false ∧
    tgSplitLines " x".data = [[' ', 'x']] ∧
    headIs '"' " x".data = false ∧
    cleanTerragruntOutput " x" = "x" ∧
    ("x" : String) ≠ " x" := by decide

/-- Claim C9 (amended): cleaning is the identity on input that is clean
line by line: every line free of the log signature and of ` msg=`,
nonempty, and equal to its own whitespace-trim (the condition the original
claim lacks), with the whole text not wrapped in double quotes; then
`cleanTerragruntOutput` returns the input unchanged, so cleaning is
idempotent on its own output whenever that output meets these
conditions. -/
theorem clean_output_identity (raw : String)
    (hlines : ∀ l ∈ tgSplitLines raw.data, matchesTgLog l = false ∧
      containsTok " msg=".data l = false ∧ goTrimSpace l = l ∧ l ≠ [])
    (hnq : headIs '"' raw.data = false ∨ lastIs '"' raw.data = false) :
    cleanTerragruntOutput raw = raw := by
  have hfl : tgFilteredLines raw.data = tgSplitLines raw.data := tgFilteredLines_id _ hlines
  have hjoin : tgJoinLines (tgSplitLines raw.data) = raw.data := tgJoinLines_split _
  have htrim : goTrimSpace raw.data = raw.data := by
    apply goTrimSpace_eq_self_of_ends
    · intro c t hs
      obtain ⟨l1, ls, hsp⟩ : ∃ l1 ls, tgSplitLines raw.data = l1 :: ls := by
        cases h : tgSplitLines raw.data with
        | nil => exact absurd h (tgSplitLines_ne_nil _)
        | cons a b => exact ⟨a, b, rfl⟩
      have hl1 := hlines l1 (by rw [hsp]; exact List.mem_cons_self _ _)
      have hh : raw.data.head? = l1.head? := by
        have h0 : raw.data.head? = (tgJoinLines (l1 :: ls)).head? := by
          rw [← hsp, hjoin]
        rw [h0, tgJoinLines_head? l1 ls hl1.2.2.2]
      rw [hs] at hh
      cases hl : l1 with
      | nil => exact absurd hl hl1.2.2.2
      | cons c1 t1 =>
        rw [hl] at hh
        injection hh with hc1
        rw [← hc1] at hl
        exact trim_fix_head l1 hl1.2.2.1 c t1 hl
    · intro c t hs
      obtain ⟨init, llast, hsp⟩ : ∃ init llast, tgSplitLines raw.data = init ++ [llast] := by
        rcases List.eq_nil_or_concat' (tgSplitLines raw.data) with h | ⟨i, b, h⟩
        · exact absurd h (tgSplitLines_ne_nil _)
        · exact ⟨i, b, h⟩
      have hll := hlines llast
        (by rw [hsp]; exact List.mem_append_right _ (List.mem_singleton_self _))
      have hlast : raw.data.getLast? = llast.getLast? := by
        have h0 : raw.data.getLast? = (tgJoinLines (init ++ [llast])).getLast? := by
          rw [← hsp, hjoin]
        rw [h0, tgJoinLines_getLast? init llast hll.2.2.2]
      have hc : raw.data.getLast? = some c := by
        rw [← List.head?_reverse, hs]
        rfl
      have hlc : llast.getLast? = some c := by rw [← hlast, hc]
      rw [← List.head?_reverse] at hlc
      cases hr : llast.reverse with
      | nil => rw [hr] at hlc; exact absurd hlc (by simp)
      | cons c2 t2 =>
        rw [hr] at hlc
        injection hlc with hc2
        rw [hc2] at hr
        exact trim_fix_last llast hll.2.2.1 c t2 hr
  show String.mk (cleanTerragruntOutputL raw.data) = raw
  unfold cleanTerragruntOutputL
  dsimp only
  rw [hfl, hjoin, htrim, isEmpty_false_of_ne_nil (tgSplitLines_ne_nil raw.data)]
  rw [if_neg (by simp)]
  by_cases hjson : (headIs '{' raw.data || headIs '[' raw.data) = true
  · rw [if_pos hjson]
  · rw [if_neg hjson]
    have hq : (headIs '"' raw.data && lastIs '"' raw.data) = false := by
      rcases hnq with h | h <;> simp [h]
    rw [if_neg (by simp [hq])]

theorem clean_output_identity_witness :
    cleanTerragruntOutput "abc\ndef" = "abc\ndef" :=
  clean_output_identity "abc\ndef" (by decide) (by decide)
